import Mathlib

/-!
Verification of the Firestore MCP server tool execution engine
(`src/lib/firestore-tools.ts`): the value sanitizer, the numeric
aggregation calculator, argument parsing, schema inference, and the
query execution pipeline.

JavaScript values are modelled with an explicit heap: compound values
(arrays, plain objects, Firestore-native objects) live on the heap and
are referred to by identity (`JSValue.ref`), mirroring JavaScript
reference semantics, on which the sanitizer's identity-based `seen`
set depends.  Recursion over the (possibly cyclic) heap is fuelled:
`none` models non-termination / stack exhaustion at the given budget.
-/

set_option maxRecDepth 8000
set_option linter.unusedVariables false
set_option linter.unreachableTactic false
set_option linter.unusedTactic false

namespace FirestoreMcp

/-- A JavaScript number: either a finite value (modelled exactly as a
rational) or one of the non-finite values NaN and the two infinities. -/
inductive JSNum where
  | finite (q : Rat)
  | nan
  | posInf
  | negInf
deriving DecidableEq, Repr

/-- A JavaScript runtime value.  Primitives are immediate; compound
values are heap references.  `exotic` covers values such as functions
and symbols, carrying the result of `typeof value` and of
`String(value)`. -/
inductive JSValue where
  | null
  | undefined
  | num (n : JSNum)
  | str (s : String)
  | bool (b : Bool)
  | bigint (i : Int)
  | exotic (ty : String) (strRep : String)
  | ref (id : Nat)
deriving DecidableEq, Repr

/-- A heap object: one JavaScript object together with the capability
information the source code probes for (constructor name, `toDate`,
`toJSON`).  `timestamp toDateOk` records whether `toDate().toISOString()`
succeeds (yielding `iso`) or throws (the source then falls back to the
raw `seconds`/`nanoseconds` components).  `withToJSON ok` records
whether the custom `toJSON` hook returns `jsonVal` or throws (the
source then falls through to generic field traversal of `fields`). -/
inductive HeapObj where
  | date (iso : String)
  | arr (elems : List JSValue)
  | buffer (b64 : String)
  | timestamp (toDateOk : Bool) (iso : String) (seconds nanoseconds : JSNum)
  | geopoint (latitude longitude : JSNum)
  | docref (path docId : String)
  | withToJSON (ok : Bool) (jsonVal : JSValue) (fields : List (String × JSValue))
  | plain (fields : List (String × JSValue))
deriving Repr

/-- The JavaScript heap: object identities are list indices. -/
abbrev Heap := List HeapObj

/-- A sanitized (transmission-safe, plain JSON) value: the output type
of the sanitizer. -/
inductive SValue where
  | null
  | num (n : JSNum)
  | str (s : String)
  | bool (b : Bool)
  | arr (elems : List SValue)
  | obj (fields : List (String × SValue))
deriving Repr

/-- Threads the sanitizer's mutable `seen` set through a list, mapping
each element and propagating `none` (out of fuel). -/
def mapAccumOpt (g : List Nat → α → Option (β × List Nat)) :
    List Nat → List α → Option (List β × List Nat)
  | s, [] => some ([], s)
  | s, a :: as =>
    match g s a with
    | none => none
    | some (b, s1) =>
      match mapAccumOpt g s1 as with
      | none => none
      | some (bs, s2) => some (b :: bs, s2)

/-- The generic-object traversal branch of `sanitizeFirestoreValue`:
an object already in `seen` renders as the literal string
`"[Circular]"`; otherwise its identity is added to `seen` (a mutation
that persists, as with the source's `WeakSet`) and its fields are
sanitized in order. -/
def sanitizeObjectFields (rec : List Nat → JSValue → Option (SValue × List Nat))
    (i : Nat) (seen : List Nat) (fields : List (String × JSValue)) :
    Option (SValue × List Nat) :=
  if i ∈ seen then some (.str "[Circular]", seen)
  else
    match mapAccumOpt (fun s kv =>
        match rec s kv.2 with
        | none => none
        | some (r, s1) => some ((kv.1, r), s1)) (i :: seen) fields with
    | none => none
    | some (fs, seen1) => some (.obj fs, seen1)

/-- `sanitizeFirestoreValue` from `src/lib/firestore-tools.ts`, with an
explicit call-stack budget `fuel` (the source relies on the JavaScript
call stack; `none` models stack exhaustion).  The branch order follows
the source: null/undefined, primitives, bigint, Date, Array, Buffer,
then constructor-name probing (Timestamp, GeoPoint, DocumentReference),
the `toJSON` hook, and finally the `seen`-guarded generic traversal. -/
def sanitizeFuel (h : Heap) : Nat → List Nat → JSValue → Option (SValue × List Nat)
  | 0, _, _ => none
  | fuel + 1, seen, v =>
    match v with
    | .null => some (.null, seen)
    | .undefined => some (.null, seen)
    | .num n => some (.num n, seen)
    | .str s => some (.str s, seen)
    | .bool b => some (.bool b, seen)
    | .bigint i => some (.str (toString i), seen)
    | .exotic _ strRep => some (.str strRep, seen)
    | .ref i =>
      match h[i]? with
      | none => none
      | some (.date iso) => some (.str iso, seen)
      | some (.arr elems) =>
        match mapAccumOpt (fun s e => sanitizeFuel h fuel s e) seen elems with
        | none => none
        | some (vs, seen1) => some (.arr vs, seen1)
      | some (.buffer b64) => some (.str b64, seen)
      | some (.timestamp ok iso sec nsec) =>
        if ok then some (.str iso, seen)
        else some (.obj [("seconds", .num sec), ("nanoseconds", .num nsec)], seen)
      | some (.geopoint la lo) =>
        some (.obj [("latitude", .num la), ("longitude", .num lo)], seen)
      | some (.docref p d) => some (.obj [("path", .str p), ("id", .str d)], seen)
      | some (.withToJSON ok jv fields) =>
        if ok then sanitizeFuel h fuel seen jv
        else sanitizeObjectFields (fun s e => sanitizeFuel h fuel s e) i seen fields
      | some (.plain fields) =>
        sanitizeObjectFields (fun s e => sanitizeFuel h fuel s e) i seen fields

/-- Top-level entry of the sanitizer: fresh empty `seen` set. -/
def sanitizeFirestoreValue (h : Heap) (fuel : Nat) (v : JSValue) : Option SValue :=
  (sanitizeFuel h fuel [] v).map Prod.fst

/-- A self-referential plain object: field `self` points back to the
object itself; the other fields are ordinary values. -/
def selfRefHeap : Heap :=
  [HeapObj.plain [("self", .ref 0), ("label", .str "node"), ("x", .num (.finite 1))]]

/-- A Firestore document as fetched by the executor: snapshot `id`
plus the `data()` record (field name to value, in insertion order;
the data object itself is fresh per snapshot and is referenced by
nothing, so its own identity never collides with a heap id). -/
structure RawDoc where
  id : String
  data : List (String × JSValue)
deriving Repr

/-- Reading `doc.data[field]` in JavaScript: an absent key yields
`undefined`, indistinguishable from an explicit `undefined` value. -/
def getField (data : List (String × JSValue)) (field : String) : JSValue :=
  (data.lookup field).getD .undefined

/-- The `NumericStats` record of the source. -/
structure NumericStats where
  sum : Rat
  average : Rat
  validCount : Nat
  invalidCount : Nat
deriving DecidableEq, Repr

/-- One iteration of the loop in `collectNumericStats`: a present,
finite numeric value is added to the sum and counted valid; any other
value that is not `undefined` is counted invalid; `undefined` (absent
field) touches neither counter. -/
def statsStep (field : String) (acc : Rat × Nat × Nat) (doc : RawDoc) : Rat × Nat × Nat :=
  match getField doc.data field with
  | .num (.finite q) => (acc.1 + q, acc.2.1 + 1, acc.2.2)
  | .undefined => acc
  | _ => (acc.1, acc.2.1, acc.2.2 + 1)

/-- `collectNumericStats` from the source: a left-to-right loop over
the fetched documents, then `average = sum / validCount` when
`validCount > 0`, else `0`. -/
def collectNumericStats (docs : List RawDoc) (field : String) : NumericStats :=
  let acc := docs.foldl (statsStep field) (0, 0, 0)
  { sum := acc.1
    average := if 0 < acc.2.1 then acc.1 / (acc.2.1 : Rat) else 0
    validCount := acc.2.1
    invalidCount := acc.2.2 }

/-- `formatNumericLine` from the source: the ignored-count note is
appended only when `invalidCount` is nonzero, with a plural `s` unless
exactly one document was ignored. -/
def formatNumericLine (label : String) (value : Rat) (validCount invalidCount : Nat) : String :=
  let base := label ++ ": " ++ toString value
  if invalidCount = 0 then base
  else
    base ++ " (ignored " ++ toString invalidCount ++ " document" ++
      (if invalidCount = 1 then "" else "s") ++ " with non-numeric values)"

/-- A document counts as valid for field `f` when the field holds a
finite number (present and numeric). -/
def isValidNumericDoc (field : String) (doc : RawDoc) : Bool :=
  match getField doc.data field with
  | .num (.finite _) => true
  | _ => false

/-- A document counts as invalid for field `f` when the field is
present (not `undefined`) but does not hold a finite number. -/
def isInvalidNumericDoc (field : String) (doc : RawDoc) : Bool :=
  match getField doc.data field with
  | .num (.finite _) => false
  | .undefined => false
  | _ => true

/-- The numeric contribution of one document: its field value when
valid, `0` otherwise. -/
def numericContribution (field : String) (doc : RawDoc) : Rat :=
  match getField doc.data field with
  | .num (.finite q) => q
  | _ => 0

/-- The documents of the spec's worked example:
`x: 5`, `x: "a"`, `x` missing, `x: 3`. -/
def statsExampleDocs : List RawDoc :=
  [⟨"d1", [("x", .num (.finite 5))]⟩,
   ⟨"d2", [("x", .str "a")]⟩,
   ⟨"d3", []⟩,
   ⟨"d4", [("x", .num (.finite 3))]⟩]

/-- An untrusted JSON-decoded argument value as delivered by the
transport layer: a finite tree (a JSON payload has no sharing and no
cycles).  `undefined` stands for an absent value (JavaScript `undefined`),
so that key-present-with-undefined and key-absent both read back as
`undefined` while `hasOwnProperty` can still distinguish presence. -/
inductive RawValue where
  | null
  | undefined
  | num (n : JSNum)
  | str (s : String)
  | bool (b : Bool)
  | arr (items : List RawValue)
  | obj (fields : List (String × RawValue))
deriving Repr

/-- JavaScript property read `o[k]`: absent key yields `undefined`. -/
def rawGet (fields : List (String × RawValue)) (k : String) : RawValue :=
  (fields.lookup k).getD .undefined

/-- `Object.prototype.hasOwnProperty.call(o, k)`. -/
def rawHasOwn (fields : List (String × RawValue)) (k : String) : Bool :=
  (fields.lookup k).isSome

/-- The fixed 10-member operator enumeration of the source. -/
def WHERE_OPERATORS : List String :=
  ["==", "!=", "<", "<=", ">", ">=", "array-contains", "array-contains-any",
   "in", "not-in"]

/-- A validated filter clause (`FilterArg` in the source).  The value
is kept verbatim from the payload. -/
structure FilterArg where
  field : String
  operator : String
  value : RawValue
deriving Repr

/-- A validated order clause (`OrderByArg` in the source). -/
structure OrderByArg where
  field : String
  direction : String
deriving Repr

/-- JavaScript `String.prototype.trim`: strip leading and trailing
whitespace. -/
def jsTrim (s : String) : String :=
  String.mk (((s.data.dropWhile Char.isWhitespace).reverse.dropWhile
    Char.isWhitespace).reverse)

/-- Validation of one element of the `filters` array, mirroring the
checks of `parseFilters` in source order: plain-object shape, non-blank
`field` string, enumerated `operator`, and explicit presence of the
`value` key (a `null` value is accepted; a missing key is not). -/
def parseFilterItem (index : Nat) (item : RawValue) : Except String FilterArg :=
  match item with
  | .obj fields =>
    match rawGet fields "field" with
    | .str s =>
      if jsTrim s = "" then
        .error ("filters[" ++ toString index ++ "].field must be a non-empty string.")
      else
        match rawGet fields "operator" with
        | .str op =>
          if op ∈ WHERE_OPERATORS then
            if rawHasOwn fields "value" then
              .ok { field := jsTrim s, operator := op, value := rawGet fields "value" }
            else
              .error ("filters[" ++ toString index ++ "] must include a value property.")
          else
            .error ("filters[" ++ toString index ++ "].operator must be one of: " ++
              String.intercalate ", " WHERE_OPERATORS ++ ".")
        | _ =>
          .error ("filters[" ++ toString index ++ "].operator must be one of: " ++
            String.intercalate ", " WHERE_OPERATORS ++ ".")
    | _ => .error ("filters[" ++ toString index ++ "].field must be a non-empty string.")
  | _ =>
    .error ("filters[" ++ toString index ++ "] must be an object with field, operator, and value.")

/-- Sequential validation of the filter array (JavaScript `map` with a
thrown error aborting at the first offending index). -/
def parseFiltersList (index : Nat) : List RawValue → Except String (List FilterArg)
  | [] => .ok []
  | item :: rest =>
    match parseFilterItem index item with
    | .error e => .error e
    | .ok f =>
      match parseFiltersList (index + 1) rest with
      | .error e => .error e
      | .ok fs => .ok (f :: fs)

/-- `parseFilters` from the source: absent (`undefined`) means no
filters; anything but an array is rejected. -/
def parseFilters : RawValue → Except String (List FilterArg)
  | .undefined => .ok []
  | .arr items => parseFiltersList 0 items
  | _ => .error "filters must be an array when provided."

/-- `parseLimit` from the source: absent means no limit; a number is
accepted exactly when it is a (finite) integer strictly greater than
zero (`Number.isInteger` rejects `NaN`, the infinities, and
non-integral values); every other shape is rejected. -/
def parseLimit : RawValue → Except String (Option Rat)
  | .undefined => .ok none
  | .num (.finite q) =>
    if q.den = 1 ∧ 0 < q then .ok (some q)
    else .error "limit must be a positive integer when provided."
  | _ => .error "limit must be a positive integer when provided."

/-- JavaScript loose/strict equality on numbers as Firestore applies
it: exact value equality on finite numbers, `NaN` equal to nothing. -/
def jsNumEq : JSNum → JSNum → Bool
  | .finite q, .finite r => q == r
  | .posInf, .posInf => true
  | .negInf, .negInf => true
  | _, _ => false

/-- Element-wise equality of a heap array against a payload array. -/
def jsEqList (eqf : JSValue → RawValue → Bool) : List JSValue → List RawValue → Bool
  | [], [] => true
  | v :: vs, r :: rs => eqf v r && jsEqList eqf vs rs
  | _, _ => false

/-- Field-wise equality of a heap object against a payload object. -/
def jsEqFields (eqf : JSValue → RawValue → Bool) :
    List (String × JSValue) → List (String × RawValue) → Bool
  | [], [] => true
  | kv :: vs, kr :: rs => kv.1 == kr.1 && eqf kv.2 kr.2 && jsEqFields eqf vs rs
  | _, _ => false

/-- Modelled external semantics: Firestore value equality between a
stored document value and a filter payload value.  Fuelled: stored data
is acyclic and payload values are finite trees, so any fuel at least
the value depth is exact. -/
def jsEqRaw (h : Heap) : Nat → JSValue → RawValue → Bool
  | 0, _, _ => false
  | f + 1, v, rv =>
    match v, rv with
    | .null, .null => true
    | .num m, .num n => jsNumEq m n
    | .str s, .str t => s == t
    | .bool a, .bool b => a == b
    | .ref i, .arr items =>
      match h[i]? with
      | some (.arr elems) => jsEqList (jsEqRaw h f) elems items
      | _ => false
    | .ref i, .obj rfields =>
      match h[i]? with
      | some (.plain pfields) => jsEqFields (jsEqRaw h f) pfields rfields
      | _ => false
    | _, _ => false

/-- Modelled external semantics: Firestore range comparison, defined
for same-type primitive pairs (numbers and strings). -/
def jsCmpRaw : JSValue → RawValue → Option Ordering
  | .num (.finite q), .num (.finite r) => some (compare q r)
  | .str s, .str t => some (compare s t)
  | _, _ => none

/-- Modelled external semantics: evaluation of one Firestore `where`
operator on a stored value against the filter payload value. -/
def evalOp (h : Heap) (fuel : Nat) (op : String) (v : JSValue) (rv : RawValue) : Bool :=
  if op = "==" then jsEqRaw h fuel v rv
  else if op = "!=" then
    match v with
    | .null => false
    | _ => !(jsEqRaw h fuel v rv)
  else if op = "<" then jsCmpRaw v rv == some .lt
  else if op = "<=" then jsCmpRaw v rv == some .lt || jsCmpRaw v rv == some .eq
  else if op = ">" then jsCmpRaw v rv == some .gt
  else if op = ">=" then jsCmpRaw v rv == some .gt || jsCmpRaw v rv == some .eq
  else if op = "array-contains" then
    match v with
    | .ref i =>
      match h[i]? with
      | some (.arr elems) => elems.any (fun e => jsEqRaw h fuel e rv)
      | _ => false
    | _ => false
  else if op = "array-contains-any" then
    match v, rv with
    | .ref i, .arr items =>
      match h[i]? with
      | some (.arr elems) => elems.any (fun e => items.any (fun r => jsEqRaw h fuel e r))
      | _ => false
    | _, _ => false
  else if op = "in" then
    match rv with
    | .arr items => items.any (fun r => jsEqRaw h fuel v r)
    | _ => false
  else if op = "not-in" then
    match v, rv with
    | .null, _ => false
    | _, .arr items => items.all (fun r => !(jsEqRaw h fuel v r))
    | _, _ => false
  else false

/-- Modelled external semantics: a document matches a filter clause
when the named field exists and the operator evaluates to true on it
(documents lacking the field match no filter). -/
def evalWhere (h : Heap) (fuel : Nat) (f : FilterArg) (d : RawDoc) : Bool :=
  match d.data.lookup f.field with
  | none => false
  | some v => evalOp h fuel f.operator v f.value

/-- Modelled external semantics: Firestore cross-type ordering rank. -/
def typeRank (h : Heap) : JSValue → Nat
  | .null => 0
  | .bool _ => 1
  | .num _ => 2
  | .str _ => 4
  | .bigint _ => 2
  | .ref i =>
    match h[i]? with
    | some (.date _) => 3
    | some (.timestamp ..) => 3
    | some (.buffer _) => 5
    | some (.docref ..) => 6
    | some (.geopoint ..) => 7
    | some (.arr _) => 8
    | some (.withToJSON ..) => 9
    | some (.plain _) => 9
    | none => 10
  | .undefined => 11
  | .exotic _ _ => 11

/-- Modelled external semantics: number ordering with NaN first. -/
def cmpNum : JSNum → JSNum → Ordering
  | .nan, .nan => .eq
  | .nan, _ => .lt
  | _, .nan => .gt
  | .negInf, .negInf => .eq
  | .negInf, _ => .lt
  | _, .negInf => .gt
  | .posInf, .posInf => .eq
  | .posInf, _ => .gt
  | _, .posInf => .lt
  | .finite q, .finite r => compare q r

/-- Modelled external semantics: Firestore document-value ordering
(rank across types, then within numbers and strings; other same-rank
values compare equal, which the claims never exercise). -/
def cmpJSValue (h : Heap) (a b : JSValue) : Ordering :=
  let ra := typeRank h a
  let rb := typeRank h b
  if ra < rb then .lt
  else if rb < ra then .gt
  else
    match a, b with
    | .num m, .num n => cmpNum m n
    | .str s, .str t => compare s t
    | .bool x, .bool y => if x = y then .eq else if x then .gt else .lt
    | _, _ => .eq

/-- Composite sort key from the orderBy clauses: first clause primary,
`desc` reverses, ties fall through to later clauses. -/
def docCmpBy (h : Heap) : List OrderByArg → RawDoc → RawDoc → Ordering
  | [], _, _ => .eq
  | o :: os, d1, d2 =>
    let c0 := cmpJSValue h (getField d1.data o.field) (getField d2.data o.field)
    let c := if o.direction = "desc" then c0.swap else c0
    match c with
    | .eq => docCmpBy h os d1 d2
    | r => r

/-- Insertion into a sorted list (model of the server-side sort). -/
def insertSorted (le : RawDoc → RawDoc → Bool) (d : RawDoc) : List RawDoc → List RawDoc
  | [] => [d]
  | e :: es => if le d e then d :: e :: es else e :: insertSorted le d es

/-- Insertion sort (model of the server-side sort). -/
def sortDocs (le : RawDoc → RawDoc → Bool) : List RawDoc → List RawDoc
  | [] => []
  | d :: ds => insertSorted le d (sortDocs le ds)

/-- The query object built by chaining `where` / `orderBy` / `limit`,
as the source's loop does on the Firestore client. -/
structure FsQuery where
  base : List RawDoc
  filters : List FilterArg
  orders : List OrderByArg
  limitN : Option Nat
deriving Repr

def FsQuery.whereF (q : FsQuery) (f : FilterArg) : FsQuery :=
  { q with filters := q.filters ++ [f] }

def FsQuery.orderByF (q : FsQuery) (o : OrderByArg) : FsQuery :=
  { q with orders := q.orders ++ [o] }

def FsQuery.limitF (q : FsQuery) (n : Nat) : FsQuery :=
  { q with limitN := some n }

/-- Modelled external semantics: the documents matching the query's
filter conjunction (independent of orderBy and limit). -/
def fsMatching (h : Heap) (fuel : Nat) (q : FsQuery) : List RawDoc :=
  q.base.filter (fun d => q.filters.all (fun f => evalWhere h fuel f d))

/-- A limit clause caps result cardinality; no clause means no cap. -/
def applyLimit (limitN : Option Nat) (docs : List RawDoc) : List RawDoc :=
  match limitN with
  | some n => docs.take n
  | none => docs

/-- Modelled external semantics: `query.get()` returns the filtered,
ordered, and (when a limit clause is attached) limited documents. -/
def fsGetDocs (h : Heap) (fuel : Nat) (q : FsQuery) : List RawDoc :=
  applyLimit q.limitN
    (sortDocs (fun a b => docCmpBy h q.orders a b ≠ Ordering.gt) (fsMatching h fuel q))

/-- Modelled external semantics: `query.count().get()`.  Per the
Firestore client's documented behaviour the count aggregation takes
into account the query's filters and any limit clause, i.e. it counts
exactly the documents `query.get()` would return. -/
def fsCount (h : Heap) (fuel : Nat) (q : FsQuery) : Nat :=
  (fsGetDocs h fuel q).length

/-- The validated arguments consumed by `queryFirestore` (the source's
`QueryArgs` with `collectionPath` replaced by the collection content
passed alongside, and the aggregation object flattened). -/
structure QueryArgs where
  filters : List FilterArg
  orderBy : List OrderByArg
  limit : Option Nat
  aggCount : Bool
  aggSum : Option String
  aggAvg : Option String
deriving Repr

/-- `sanitizeFirestoreValue(doc.data())`: the snapshot's data object is
a fresh plain object referenced by nothing, so adding its identity to
the `seen` set is unobservable and traversal proceeds field by field
from an empty `seen` set. -/
def sanitizeDocData (h : Heap) (fuel : Nat) (fields : List (String × JSValue)) :
    Option (List (String × SValue)) :=
  match mapAccumOpt (fun s kv =>
      match sanitizeFuel h fuel s kv.2 with
      | none => none
      | some (r, s1) => some ((kv.1, r), s1)) [] fields with
  | none => none
  | some (fs, _) => some fs

/-- JavaScript object-literal property write: an existing key is
overwritten in place, a new key is appended. -/
def setProp (fields : List (String × SValue)) (k : String) (v : SValue) :
    List (String × SValue) :=
  if fields.any (fun p => p.1 == k) then
    fields.map (fun p => if p.1 == k then (p.1, v) else p)
  else fields ++ [(k, v)]

/-- JavaScript spread into an object literal: each spread field is
written over the base in order. -/
def spreadInto (base extra : List (String × SValue)) : List (String × SValue) :=
  extra.foldl (fun acc kv => setProp acc kv.1 kv.2) base

/-- One rendered document of the query result: the object literal
`id: doc.id` spread with the sanitized document fields (a sanitized
data field named `id` therefore overwrites the snapshot id). -/
def renderDoc (h : Heap) (fuel : Nat) (d : RawDoc) : Option SValue :=
  match sanitizeDocData h fuel d.data with
  | none => none
  | some fs => some (.obj (spreadInto [("id", .str d.id)] fs))

/-- The observable outcome of one `query_firestore` execution. -/
structure QueryExecResult where
  foundCount : Nat
  aggregateCount : Option Nat
  sumLine : Option String
  avgLine : Option String
  sanitizedDocs : List SValue
deriving Repr

/-- The query object after the source's chaining loops: all filters in
input order, then all order clauses, then the limit when present. -/
def buildQuery (coll : List RawDoc) (args : QueryArgs) : FsQuery :=
  let q0 : FsQuery := { base := coll, filters := [], orders := [], limitN := none }
  let q1 := args.filters.foldl FsQuery.whereF q0
  let q2 := args.orderBy.foldl FsQuery.orderByF q1
  match args.limit with
  | some n => FsQuery.limitF q2 n
  | none => q2

/-- The body of `queryFirestore` after argument validation: build the
query (limit attached before any aggregation); if a count was
requested, run the count aggregation on that query object; fetch the
documents; compute sum/avg statistics over the fetched (limited)
documents; sanitize and render each document. -/
def queryFirestoreExec (h : Heap) (coll : List RawDoc) (args : QueryArgs)
    (fuel : Nat) : Option QueryExecResult :=
  let q := buildQuery coll args
  let aggregateCount := if args.aggCount then some (fsCount h fuel q) else none
  let rawDocs := fsGetDocs h fuel q
  match rawDocs.mapM (renderDoc h fuel) with
  | none => none
  | some sdocs =>
    some { foundCount := rawDocs.length
           aggregateCount := aggregateCount
           sumLine := args.aggSum.map (fun f =>
             let st := collectNumericStats rawDocs f
             formatNumericLine ("Sum of '" ++ f ++ "'") st.sum st.validCount st.invalidCount)
           avgLine := args.aggAvg.map (fun f =>
             let st := collectNumericStats rawDocs f
             formatNumericLine ("Average of '" ++ f ++ "'") st.average st.validCount st.invalidCount)
           sanitizedDocs := sdocs }

/-- `describeValueType` from the source, in source branch order:
null, undefined, arrays, dates, then constructor-name probing, then
generic objects, then `typeof`. -/
def describeValueType (h : Heap) : JSValue → String
  | .null => "null"
  | .undefined => "undefined"
  | .num _ => "number"
  | .str _ => "string"
  | .bool _ => "boolean"
  | .bigint _ => "bigint"
  | .exotic ty _ => ty
  | .ref i =>
    match h[i]? with
    | none => "object"
    | some (.arr _) => "array"
    | some (.date _) => "timestamp"
    | some (.timestamp ..) => "timestamp"
    | some (.geopoint ..) => "geopoint"
    | some (.docref ..) => "reference"
    | some (.buffer _) => "object"
    | some (.withToJSON ..) => "object"
    | some (.plain _) => "object"

/-- The schema accumulator: per field path, the insertion-ordered set
of observed type tags, and the first example value seen. -/
structure SchemaAcc where
  schema : List (String × List String)
  examples : List (String × JSValue)
deriving Repr

/-- First encounter of a path creates its (empty) type set and records
the example value; later encounters leave both untouched. -/
def ensurePath (acc : SchemaAcc) (path : String) (v : JSValue) : SchemaAcc :=
  if (acc.schema.lookup path).isSome then acc
  else { schema := acc.schema ++ [(path, [])],
         examples := acc.examples ++ [(path, v)] }

/-- `Set.add` of a type tag on one path's type set. -/
def addTypeTo (schema : List (String × List String)) (path ty : String) :
    List (String × List String) :=
  schema.map (fun p =>
    if p.1 == path then (p.1, if ty ∈ p.2 then p.2 else p.2 ++ [ty]) else p)

/-- `Object.entries` of a heap object as traversed by the schema
inferencer (buffer byte indices are not modelled). -/
def heapEntries : HeapObj → List (String × JSValue)
  | .plain fields => fields
  | .withToJSON _ _ fields => fields
  | _ => []

/-- `isPlainObject` from the source: an object that is neither null
nor an array. -/
def isPlainObjectVal (h : Heap) : JSValue → Bool
  | .ref i =>
    match h[i]? with
    | some (.arr _) => false
    | some _ => true
    | none => false
  | _ => false

/-- Field-path formation: nested keys joined with a dot; an empty
prefix (falsy in the source) yields the bare key. -/
def joinPath (pre k : String) : String :=
  if pre = "" then k else pre ++ "." ++ k

/-- Processing of a single field by `collectSchema`: form the dot
path, describe the type, create the path entry and example on first
encounter, add the type tag, and descend exactly when the tag is
`object` and the value is a plain object. -/
def schemaField (h : Heap)
    (descend : List (String × JSValue) → String → SchemaAcc → SchemaAcc)
    (pre : String) (acc : SchemaAcc) (kv : String × JSValue) : SchemaAcc :=
  let fieldPath := joinPath pre kv.1
  let ty := describeValueType h kv.2
  let acc1 := ensurePath acc fieldPath kv.2
  let acc2 : SchemaAcc := { acc1 with schema := addTypeTo acc1.schema fieldPath ty }
  if (ty == "object") && isPlainObjectVal h kv.2 then
    match kv.2 with
    | .ref i =>
      match h[i]? with
      | some ho => descend (heapEntries ho) fieldPath acc2
      | none => acc2
    | _ => acc2
  else acc2

/-- `collectSchema` from the source, fuelled on nesting depth (the
source recurses on the JavaScript stack; stored data is acyclic and
finitely nested, so any fuel at least the nesting depth is exact). -/
def collectSchema (h : Heap) : Nat → List (String × JSValue) → String → SchemaAcc → SchemaAcc
  | 0, _, _, acc => acc
  | fuel + 1, data, pre, acc =>
    data.foldl (schemaField h (fun d p a => collectSchema h fuel d p a) pre) acc

/-- Heap of the spec's schema example document `a: (b: 1), c: [1, 2]`:
object 0 is the nested map, object 1 the array. -/
def schemaHeap : Heap :=
  [HeapObj.plain [("b", .num (.finite 1))],
   HeapObj.arr [.num (.finite 1), .num (.finite 2)]]

/-- The top-level fields of the spec's schema example document. -/
def schemaExampleData : List (String × JSValue) := [("a", .ref 0), ("c", .ref 1)]

/-- Collection for the count-vs-limit scenario: two documents both
matching `x == 1`. -/
def cexColl : List RawDoc :=
  [⟨"d1", [("x", .num (.finite 1))]⟩, ⟨"d2", [("x", .num (.finite 1))]⟩]

/-- Arguments for the count-vs-limit scenario: filter `x == 1`,
`limit 1`, count requested. -/
def cexArgs : QueryArgs :=
  { filters := [⟨"x", "==", .num (.finite 1)⟩], orderBy := [], limit := some 1,
    aggCount := true, aggSum := none, aggAvg := none }

/-- The reference (if any) inside an immediate value points below `b`. -/
def refBelow (v : JSValue) (b : Nat) : Prop :=
  match v with
  | .ref j => j < b
  | _ => True

/-- Heap shape under which the sanitizer's recursion is well-founded:
the unguarded recursion edges — array elements and the result of a
successful `toJSON` hook — only reference strictly smaller object
identities, while the `seen`-guarded edges (plain-object fields and
the fields of an object whose `toJSON` throws) may reference any valid
identity, cycles included. -/
def GoodHeap (h : Heap) : Prop :=
  ∀ (i : Nat) (obj : HeapObj), h[i]? = some obj →
    match obj with
    | .arr elems => ∀ v ∈ elems, refBelow v i
    | .withToJSON true jv _ => refBelow jv i
    | .withToJSON false _ fields => ∀ kv ∈ fields, refBelow kv.2 h.length
    | .plain fields => ∀ kv ∈ fields, refBelow kv.2 h.length
    | _ => True

/-- A heap in topological order: every object, through every edge,
references only strictly smaller identities (no cycles at all). -/
def OrderedHeap (h : Heap) : Prop :=
  ∀ (i : Nat) (obj : HeapObj), h[i]? = some obj →
    match obj with
    | .arr elems => ∀ v ∈ elems, refBelow v i
    | .withToJSON _ jv fields => refBelow jv i ∧ ∀ kv ∈ fields, refBelow kv.2 i
    | .plain fields => ∀ kv ∈ fields, refBelow kv.2 i
    | _ => True

/-- Number of valid object identities not yet in the `seen` set: the
decreasing measure of the `seen`-guarded recursion. -/
def unseenCount (h : Heap) (seen : List Nat) : Nat :=
  ((List.range h.length).filter (fun i => decide (i ∉ seen))).length

/-- A self-containing array: the one unguarded cycle shape. -/
def cyclicArrayHeap : Heap := [HeapObj.arr [.ref 0]]

/-- The sanitizer diverges on a value when no call-stack budget makes
it return: the model of unbounded recursion / stack overflow. -/
def sanitizeDiverges (h : Heap) (v : JSValue) : Prop :=
  ∀ fuel, sanitizeFirestoreValue h fuel v = none

mutual
/-- Allocation of a plain JSON tree into the heap as JavaScript values:
children first, the node itself last, returning the extended heap and
the resulting value.  This is the embedding of a freshly parsed JSON
document: every array and object node is a distinct new identity. -/
def pushSVal : SValue → Heap → Heap × JSValue
  | .null, h => (h, .null)
  | .num n, h => (h, .num n)
  | .str s, h => (h, .str s)
  | .bool b, h => (h, .bool b)
  | .arr es, h =>
    let r := pushList es h
    (r.1 ++ [.arr r.2], .ref r.1.length)
  | .obj fs, h =>
    let r := pushFields fs h
    (r.1 ++ [.plain r.2], .ref r.1.length)

/-- Allocation of a list of plain JSON trees, left to right. -/
def pushList : List SValue → Heap → Heap × List JSValue
  | [], h => (h, [])
  | e :: es, h =>
    let r := pushSVal e h
    let r2 := pushList es r.1
    (r2.1, r.2 :: r2.2)

/-- Allocation of the fields of a plain JSON object, left to right. -/
def pushFields : List (String × SValue) → Heap → Heap × List (String × JSValue)
  | [], h => (h, [])
  | (k, v) :: fs, h =>
    let r := pushSVal v h
    let r2 := pushFields fs r.1
    (r2.1, (k, r.2) :: r2.2)
end

mutual
/-- A sanitized value contains only finite numbers. -/
def svalAllFinite : SValue → Bool
  | .null => true
  | .num (.finite _) => true
  | .num _ => false
  | .str _ => true
  | .bool _ => true
  | .arr es => svalListAllFinite es
  | .obj fs => svalFieldsAllFinite fs

/-- All elements contain only finite numbers. -/
def svalListAllFinite : List SValue → Bool
  | [] => true
  | e :: es => svalAllFinite e && svalListAllFinite es

/-- All field values contain only finite numbers. -/
def svalFieldsAllFinite : List (String × SValue) → Bool
  | [] => true
  | (_, v) :: fs => svalAllFinite v && svalFieldsAllFinite fs
end

end FirestoreMcp

namespace FirestoreMcp

theorem statsStep_foldl (field : String) (docs : List RawDoc) :
    ∀ init : Rat × Nat × Nat,
      docs.foldl (statsStep field) init =
        (init.1 + ((docs.map (numericContribution field)).foldr (· + ·) 0),
         init.2.1 + docs.countP (fun d => isValidNumericDoc field d),
         init.2.2 + docs.countP (fun d => isInvalidNumericDoc field d)) := by
  induction docs with
  | nil => intro init; simp
  | cons d ds ih =>
    intro init
    rw [List.foldl_cons, ih]
    rcases hv : getField d.data field with _ | _ | (q | _ | _ | _) | s | b | j | ⟨t, r⟩ | j <;>
      (simp only [List.map_cons, List.foldr_cons, List.countP_cons, Prod.mk.injEq]
       refine ⟨?_, ?_, ?_⟩ <;>
         simp [statsStep, hv, numericContribution, isValidNumericDoc,
           isInvalidNumericDoc] <;>
         first | ring | omega)

theorem statsExample_eval :
    collectNumericStats statsExampleDocs "x" =
      { sum := 8, average := 4, validCount := 2, invalidCount := 1 } := by
  simp [collectNumericStats, statsExampleDocs, statsStep, getField, List.lookup]
  norm_num

/-- Claim C2: `collectNumericStats` counts a document as valid (adding
its value to the sum) exactly when the field is present with a finite
numeric value, counts it as invalid exactly when the field is present
but not a finite number, and excludes absent-field documents from both
counters; on `[x: 5, x: "a", x missing, x: 3]` it yields `sum = 8`,
`validCount = 2`, `invalidCount = 1`. -/
theorem collectNumericStats_characterization (docs : List RawDoc) (field : String) :
    (collectNumericStats docs field).validCount =
        docs.countP (fun d => isValidNumericDoc field d) ∧
    (collectNumericStats docs field).invalidCount =
        docs.countP (fun d => isInvalidNumericDoc field d) ∧
    (collectNumericStats docs field).sum =
        (docs.map (numericContribution field)).foldr (· + ·) 0 ∧
    (∀ d ∈ docs, getField d.data field = .undefined →
        isValidNumericDoc field d = false ∧ isInvalidNumericDoc field d = false) ∧
    ((collectNumericStats statsExampleDocs "x").sum = 8 ∧
     (collectNumericStats statsExampleDocs "x").validCount = 2 ∧
     (collectNumericStats statsExampleDocs "x").invalidCount = 1) := by
  have hfold := statsStep_foldl field docs (0, 0, 0)
  refine ⟨?_, ?_, ?_, ?_, ?_⟩
  · show (docs.foldl (statsStep field) (0, 0, 0)).2.1 = _
    rw [hfold]; simp
  · show (docs.foldl (statsStep field) (0, 0, 0)).2.2 = _
    rw [hfold]; simp
  · show (docs.foldl (statsStep field) (0, 0, 0)).1 = _
    rw [hfold]; simp
  · intro d _ hd
    constructor
    · simp [isValidNumericDoc, hd]
    · simp [isInvalidNumericDoc, hd]
  · simp [statsExample_eval]

/-- Witness for C2: the characterization applied to the spec's worked
example. -/
theorem collectNumericStats_characterization_witness :
    (collectNumericStats statsExampleDocs "x").validCount =
        statsExampleDocs.countP (fun d => isValidNumericDoc "x" d) ∧
    (collectNumericStats statsExampleDocs "x").sum = 8 := by
  have h := collectNumericStats_characterization statsExampleDocs "x"
  exact ⟨h.1, h.2.2.2.2.1⟩

/-- Claim C3: a generic object whose identity is already in the
sanitizer's `seen` set renders as the literal string `"[Circular]"`,
and sanitizing a self-referential object yields the circular marker
exactly at the cyclic edge with every other field sanitized intact. -/
theorem sanitize_circular_marker :
    (∀ (h : Heap) (fuel : Nat) (seen : List Nat) (i : Nat)
        (fields : List (String × JSValue)),
        h[i]? = some (.plain fields) → i ∈ seen →
        sanitizeFuel h (fuel + 1) seen (.ref i) = some (.str "[Circular]", seen)) ∧
    sanitizeFirestoreValue selfRefHeap 3 (.ref 0) =
      some (.obj [("self", .str "[Circular]"), ("label", .str "node"),
                  ("x", .num (.finite 1))]) := by
  constructor
  · intro h fuel seen i fields hget hmem
    simp [sanitizeFuel, hget, sanitizeObjectFields, hmem]
  · rfl

/-- Witness for C3: the on-path rule applied to the self-referential
heap with its own id in `seen`. -/
theorem sanitize_circular_marker_witness :
    sanitizeFuel selfRefHeap 1 [0] (.ref 0) = some (.str "[Circular]", [0]) :=
  sanitize_circular_marker.1 selfRefHeap 0 [0] 0 _ rfl (by simp)

/-- Claim C4: the average equals sum / validCount when validCount > 0
and 0 (defined, not an error) when no document holds a finite numeric
value; the rendered line appends an ignored-count note only when
invalidCount > 0, with singular wording exactly for one ignored
document and plural otherwise. -/
theorem average_and_ignored_note (docs : List RawDoc) (field : String)
    (label : String) (value : Rat) (validCount : Nat) :
    (0 < (collectNumericStats docs field).validCount →
      (collectNumericStats docs field).average =
        (collectNumericStats docs field).sum /
          ((collectNumericStats docs field).validCount : Rat)) ∧
    ((collectNumericStats docs field).validCount = 0 →
      (collectNumericStats docs field).average = 0) ∧
    formatNumericLine label value validCount 0 = label ++ ": " ++ toString value ∧
    formatNumericLine label value validCount 1 =
      label ++ ": " ++ toString value ++
        " (ignored 1 document with non-numeric values)" ∧
    (∀ n : Nat, 2 ≤ n →
      formatNumericLine label value validCount n =
        label ++ ": " ++ toString value ++ " (ignored " ++ toString n ++
          " documents with non-numeric values)") := by
  have hval : (collectNumericStats docs field).validCount =
      (docs.foldl (statsStep field) (0, 0, 0)).2.1 := rfl
  have hsum : (collectNumericStats docs field).sum =
      (docs.foldl (statsStep field) (0, 0, 0)).1 := rfl
  have havg : (collectNumericStats docs field).average =
      if 0 < (docs.foldl (statsStep field) (0, 0, 0)).2.1 then
        (docs.foldl (statsStep field) (0, 0, 0)).1 /
          (((docs.foldl (statsStep field) (0, 0, 0)).2.1 : Nat) : Rat)
      else 0 := rfl
  have hone : toString (1 : Nat) = "1" := by decide
  refine ⟨?_, ?_, ?_, ?_, ?_⟩
  · intro hpos
    rw [hval] at hpos
    rw [havg, if_pos hpos, hsum, hval]
  · intro h0
    rw [hval] at h0
    rw [havg, if_neg (by omega)]
  · simp [formatNumericLine]
  · simp [formatNumericLine, hone, String.append_assoc]
  · intro n hn
    have h0 : ¬(n = 0) := by omega
    have h1 : ¬(n = 1) := by omega
    simp [formatNumericLine, h0, h1, String.append_assoc]

/-- Witness for C4: the average identity on the worked example and the
plural ignored note at three ignored documents. -/
theorem average_and_ignored_note_witness :
    (collectNumericStats statsExampleDocs "x").average =
      (collectNumericStats statsExampleDocs "x").sum /
        ((collectNumericStats statsExampleDocs "x").validCount : Rat) ∧
    formatNumericLine "Average of 'x'" 4 2 3 =
      "Average of 'x': 4 (ignored 3 documents with non-numeric values)" := by
  have h := average_and_ignored_note statsExampleDocs "x" "Average of 'x'" 4 2
  refine ⟨h.1 ?_, ?_⟩
  · rw [statsExample_eval]; norm_num
  · rw [h.2.2.2.2 3 (by omega)]
    decide

theorem parseFiltersList_append_error (item : RawValue) (e : String) :
    ∀ (pre : List RawValue) (n : Nat) (parsed : List FilterArg) (rest : List RawValue),
      parseFiltersList n pre = .ok parsed →
      parseFilterItem (n + pre.length) item = .error e →
      parseFiltersList n (pre ++ item :: rest) = .error e := by
  intro pre
  induction pre with
  | nil =>
    intro n parsed rest hok hbad
    have hbad' : parseFilterItem n item = .error e := by simpa using hbad
    simp only [List.nil_append, parseFiltersList, hbad']
  | cons p ps ih =>
    intro n parsed rest hok hbad
    simp only [parseFiltersList] at hok
    cases hp : parseFilterItem n p with
    | error e1 => rw [hp] at hok; simp at hok
    | ok f =>
      rw [hp] at hok
      cases hrec : parseFiltersList (n + 1) ps with
      | error e1 => rw [hrec] at hok; simp at hok
      | ok fs =>
        have hbad' : parseFilterItem ((n + 1) + ps.length) item = .error e := by
          have harith : (n + 1) + ps.length = n + (p :: ps).length := by
            simp [List.length_cons]; omega
          rw [harith]; exact hbad
        have hres := ih (n + 1) fs rest hrec hbad'
        simp only [List.cons_append, parseFiltersList, hp, List.append_eq, hres]

/-- Claim C5: a filter element whose object lacks the `value` key
entirely is rejected with an error naming the offending index's
missing value property, while an element whose `value` key is present
and null is accepted. -/
theorem filters_missing_value_vs_null
    (i n : Nat) (fields : List (String × RawValue)) (s op : String)
    (pre rest : List RawValue) (item : RawValue) (parsed : List FilterArg)
    (e : String) :
    (rawGet fields "field" = .str s → jsTrim s ≠ "" →
     rawGet fields "operator" = .str op → op ∈ WHERE_OPERATORS →
     fields.lookup "value" = none →
     parseFilterItem i (.obj fields) =
       .error ("filters[" ++ toString i ++ "] must include a value property.")) ∧
    (rawGet fields "field" = .str s → jsTrim s ≠ "" →
     rawGet fields "operator" = .str op → op ∈ WHERE_OPERATORS →
     fields.lookup "value" = some .null →
     parseFilterItem i (.obj fields) =
       .ok { field := jsTrim s, operator := op, value := .null }) ∧
    (parseFiltersList n pre = .ok parsed →
     parseFilterItem (n + pre.length) item = .error e →
     parseFiltersList n (pre ++ item :: rest) = .error e) ∧
    parseFilters (.arr [.obj [("field", .str "x"), ("operator", .str "==")]]) =
      .error "filters[0] must include a value property." ∧
    parseFilters (.arr [.obj [("field", .str "x"), ("operator", .str "=="),
        ("value", .null)]]) =
      .ok [{ field := "x", operator := "==", value := .null }] := by
  refine ⟨?_, ?_, ?_, by rfl, by rfl⟩
  · intro h1 h2 h3 h4 h5
    simp [parseFilterItem, h1, h2, h3, h4, rawHasOwn, h5]
  · intro h1 h2 h3 h4 h5
    simp only [rawGet] at h1 h3
    simp [parseFilterItem, rawGet, rawHasOwn, h1, h2, h3, h4, h5]
  · exact fun hok hbad => parseFiltersList_append_error item e pre n parsed rest hok hbad

/-- Witness for C5: both item-level rules at index 0. -/
theorem filters_missing_value_vs_null_witness :
    parseFilterItem 0 (.obj [("field", .str "x"), ("operator", .str "==")]) =
      .error "filters[0] must include a value property." ∧
    parseFilterItem 0 (.obj [("field", .str "x"), ("operator", .str "=="),
        ("value", .null)]) =
      .ok { field := "x", operator := "==", value := .null } := by
  have h1 := (filters_missing_value_vs_null 0 0
      [("field", .str "x"), ("operator", .str "==")] "x" "=="
      [] [] .null [] "").1 rfl (by decide) rfl (by decide) rfl
  have h2 := (filters_missing_value_vs_null 0 0
      [("field", .str "x"), ("operator", .str "=="), ("value", .null)] "x" "=="
      [] [] .null [] "").2.1 rfl (by decide) rfl (by decide) rfl
  constructor
  · rw [h1]
    exact congrArg Except.error (by decide)
  · rw [h2]
    have hx : jsTrim "x" = "x" := by decide
    rw [hx]

/-- Claim C6: a limit of 0, a negative number, or a non-integer number
is rejected as not a positive integer; an absent limit is accepted,
and no cardinality cap is applied. -/
theorem limit_validation (q : Rat) (docs : List RawDoc) :
    ((q ≤ 0 ∨ q.den ≠ 1) →
      parseLimit (.num (.finite q)) =
        .error "limit must be a positive integer when provided.") ∧
    parseLimit (.num (.finite 0)) =
      .error "limit must be a positive integer when provided." ∧
    parseLimit (.num (.finite (-1))) =
      .error "limit must be a positive integer when provided." ∧
    parseLimit (.num (.finite (Rat.divInt 3 2))) =
      .error "limit must be a positive integer when provided." ∧
    parseLimit .undefined = .ok none ∧
    applyLimit none docs = docs := by
  refine ⟨?_, by rfl, by rfl, by rfl, by rfl, by rfl⟩
  intro hq
  have hcond : ¬(q.den = 1 ∧ 0 < q) := by
    rcases hq with hle | hden
    · exact fun hand => absurd hand.2 (not_lt.mpr hle)
    · exact fun hand => hden hand.1
  simp [parseLimit, hcond]

/-- Witness for C6: the general rejection rule applied at zero. -/
theorem limit_validation_witness :
    parseLimit (.num (.finite 0)) =
      .error "limit must be a positive integer when provided." := by
  have h := limit_validation 0 []
  exact h.1 (Or.inl (by norm_num))

theorem lookup_append_some {α β : Type} [BEq α] (l1 l2 : List (α × β)) (k : α)
    (v : β) (hl : l1.lookup k = some v) : (l1 ++ l2).lookup k = some v := by
  induction l1 with
  | nil => simp [List.lookup] at hl
  | cons p ps ih =>
    rw [List.cons_append]
    cases p with
    | mk a b =>
      rw [List.lookup] at hl ⊢
      cases hk : (k == a) with
      | true => rw [hk] at hl; simpa using hl
      | false => rw [hk] at hl; exact ih hl

theorem ensurePath_examples (acc : SchemaAcc) (path : String) (v : JSValue) :
    ∃ t, (ensurePath acc path v).examples = acc.examples ++ t := by
  unfold ensurePath
  split
  · exact ⟨[], by simp⟩
  · exact ⟨[(path, v)], rfl⟩

theorem schemaField_examples_extend (h : Heap)
    (descend : List (String × JSValue) → String → SchemaAcc → SchemaAcc)
    (hd : ∀ d p a, ∃ t, (descend d p a).examples = a.examples ++ t)
    (pre : String) (acc : SchemaAcc) (kv : String × JSValue) :
    ∃ t, (schemaField h descend pre acc kv).examples = acc.examples ++ t := by
  obtain ⟨t1, ht1⟩ := ensurePath_examples acc (joinPath pre kv.1) kv.2
  simp only [schemaField]
  split
  · split
    · split
      · rename_i ho
        obtain ⟨t2, ht2⟩ := hd (heapEntries _) (joinPath pre kv.1)
          { ensurePath acc (joinPath pre kv.1) kv.2 with
            schema := addTypeTo (ensurePath acc (joinPath pre kv.1) kv.2).schema
              (joinPath pre kv.1) (describeValueType h kv.2) }
        exact ⟨t1 ++ t2, by rw [ht2]; simp [ht1, List.append_assoc]⟩
      · exact ⟨t1, ht1⟩
    · exact ⟨t1, ht1⟩
  · exact ⟨t1, ht1⟩

theorem foldl_examples_extend (h : Heap)
    (descend : List (String × JSValue) → String → SchemaAcc → SchemaAcc)
    (hd : ∀ d p a, ∃ t, (descend d p a).examples = a.examples ++ t)
    (pre : String) :
    ∀ (data : List (String × JSValue)) (acc : SchemaAcc),
      ∃ t, (data.foldl (schemaField h descend pre) acc).examples =
        acc.examples ++ t := by
  intro data
  induction data with
  | nil => intro acc; exact ⟨[], by simp⟩
  | cons kv rest ih =>
    intro acc
    rw [List.foldl_cons]
    obtain ⟨t1, ht1⟩ := schemaField_examples_extend h descend hd pre acc kv
    obtain ⟨t2, ht2⟩ := ih (schemaField h descend pre acc kv)
    exact ⟨t1 ++ t2, by rw [ht2, ht1, List.append_assoc]⟩

theorem collectSchema_examples_extend (h : Heap) :
    ∀ (fuel : Nat) (data : List (String × JSValue)) (pre : String) (acc : SchemaAcc),
      ∃ t, (collectSchema h fuel data pre acc).examples = acc.examples ++ t := by
  intro fuel
  induction fuel with
  | zero => intro data pre acc; exact ⟨[], by simp [collectSchema]⟩
  | succ f ih =>
    intro data pre acc
    simp only [collectSchema]
    exact foldl_examples_extend h _ (fun d p a => ih d p a) pre data acc

/-- Claim C7: schema inference dot-joins nested keys, descends into
plain objects only, tags arrays as `array` without element-wise
expansion, records the first example per path and never overwrites it,
and accumulates every observed type tag; the single document
`a: (b: 1), c: [1, 2]` yields exactly paths `a` (object), `a.b`
(number), `c` (array). -/
theorem collectSchema_inference (h : Heap) (fuel : Nat)
    (data : List (String × JSValue)) (pre path k : String) (acc : SchemaAcc)
    (ex : JSValue) (i : Nat) (elems : List JSValue) :
    collectSchema schemaHeap 3 schemaExampleData "" ⟨[], []⟩ =
      ⟨[("a", ["object"]), ("a.b", ["number"]), ("c", ["array"])],
       [("a", .ref 0), ("a.b", .num (.finite 1)), ("c", .ref 1)]⟩ ∧
    collectSchema schemaHeap 2 [("a", .str "s")] ""
        (collectSchema schemaHeap 2 [("a", .num (.finite 1))] "" ⟨[], []⟩) =
      ⟨[("a", ["number", "string"])], [("a", .num (.finite 1))]⟩ ∧
    (acc.examples.lookup path = some ex →
      (collectSchema h fuel data pre acc).examples.lookup path = some ex) ∧
    (pre ≠ "" → joinPath pre k = pre ++ "." ++ k) ∧
    joinPath "" k = k ∧
    (h[i]? = some (.arr elems) →
      collectSchema h (fuel + 1) [(k, .ref i)] pre acc =
        { ensurePath acc (joinPath pre k) (.ref i) with
          schema := addTypeTo (ensurePath acc (joinPath pre k) (.ref i)).schema
            (joinPath pre k) "array" }) := by
  refine ⟨by rfl, by rfl, ?_, ?_, ?_, ?_⟩
  · intro hex
    obtain ⟨t, ht⟩ := collectSchema_examples_extend h fuel data pre acc
    rw [ht]
    exact lookup_append_some _ _ _ _ hex
  · intro hpre
    simp [joinPath, hpre]
  · simp [joinPath]
  · intro hget
    simp [collectSchema, schemaField, describeValueType, hget]

/-- Witness for C7: first-example preservation and the array
no-descent equation on the example heap. -/
theorem collectSchema_inference_witness :
    (collectSchema schemaHeap 1 [("c", .ref 1)] ""
        ⟨[("q", ["number"])], [("q", .num (.finite 7))]⟩).examples.lookup "q" =
      some (.num (.finite 7)) ∧
    joinPath "a" "b" = "a" ++ "." ++ "b" := by
  have h := collectSchema_inference schemaHeap 1 [("c", .ref 1)] "" "q" "b"
      ⟨[("q", ["number"])], [("q", .num (.finite 7))]⟩ (.num (.finite 7)) 1
      [.num (.finite 1), .num (.finite 2)]
  refine ⟨h.2.2.1 rfl, ?_⟩
  have h2 := collectSchema_inference schemaHeap 1 [] "a" "q" "b"
      ⟨[], []⟩ .null 1 []
  exact h2.2.2.2.1 (by decide)

theorem lookup_map_overwrite (k : String) (v : SValue) :
    ∀ (fields : List (String × SValue)),
      fields.any (fun p => p.1 == k) = true →
      (fields.map (fun p => if p.1 == k then (p.1, v) else p)).lookup k = some v := by
  intro fields
  induction fields with
  | nil => intro hany; simp at hany
  | cons p ps ih =>
    intro hany
    rw [List.map_cons]
    by_cases hk : p.1 = k
    · have hc : (p.1 == k) = true := by simp [hk]
      rw [if_pos hc, List.lookup]
      have hkb : (k == p.1) = true := by simp [hk]
      rw [hkb]
    · have hc : (p.1 == k) = false := by simp [hk]
      have hps : ps.any (fun p => p.1 == k) = true := by
        rw [List.any_cons, hc] at hany
        simpa using hany
      rw [if_neg (by simp [hc]), List.lookup]
      have hkb : (k == p.1) = false := beq_eq_false_iff_ne.mpr (fun h => hk h.symm)
      rw [hkb]
      exact ih hps

theorem lookup_append_not_found (k : String) (v : SValue) :
    ∀ (fields : List (String × SValue)),
      fields.any (fun p => p.1 == k) = false →
      (fields ++ [(k, v)]).lookup k = some v := by
  intro fields
  induction fields with
  | nil => intro _; simp [List.lookup]
  | cons p ps ih =>
    intro hnone
    rw [List.any_cons] at hnone
    have h1 : (p.1 == k) = false := by
      cases hx : (p.1 == k) with
      | false => rfl
      | true => rw [hx] at hnone; simp at hnone
    have h2 : ps.any (fun p => p.1 == k) = false := by
      cases hx : ps.any (fun p => p.1 == k) with
      | false => rfl
      | true => rw [hx] at hnone; simp at hnone
    rw [List.cons_append, List.lookup]
    have hne : ¬(p.1 = k) := by
      intro he
      rw [beq_eq_false_iff_ne] at h1
      exact h1 he
    have hkb : (k == p.1) = false := beq_eq_false_iff_ne.mpr (fun h => hne h.symm)
    rw [hkb]
    exact ih h2

theorem lookup_setProp_self (fields : List (String × SValue)) (k : String)
    (v : SValue) : (setProp fields k v).lookup k = some v := by
  unfold setProp
  split
  · apply lookup_map_overwrite; assumption
  · rename_i hc
    cases hx : fields.any (fun p => p.1 == k) with
    | true => exact absurd hx hc
    | false => exact lookup_append_not_found k v fields hx

theorem lookup_map_other (k k' : String) (v : SValue) (hne : k' ≠ k) :
    ∀ (fields : List (String × SValue)),
      (fields.map (fun p => if p.1 == k then (p.1, v) else p)).lookup k' =
        fields.lookup k' := by
  intro fields
  induction fields with
  | nil => rfl
  | cons p ps ih =>
    rw [List.map_cons]
    by_cases hk : p.1 = k
    · have hc : (p.1 == k) = true := by simp [hk]
      rw [if_pos hc, List.lookup, List.lookup]
      have hkb : (k' == p.1) = false :=
        beq_eq_false_iff_ne.mpr (fun h => hne (h.trans hk))
      rw [hkb]
      exact ih
    · have hc : (p.1 == k) = false := by simp [hk]
      rw [if_neg (by simp [hc]), List.lookup, List.lookup]
      cases hkk : (k' == p.1) with
      | true => rfl
      | false => exact ih

theorem lookup_append_single_other (k k' : String) (v : SValue) (hne : k' ≠ k) :
    ∀ (fields : List (String × SValue)),
      (fields ++ [(k, v)]).lookup k' = fields.lookup k' := by
  intro fields
  induction fields with
  | nil =>
    have hkb : (k' == k) = false := by simp [hne]
    simp [List.lookup, hkb]
  | cons p ps ih =>
    rw [List.cons_append, List.lookup, List.lookup]
    cases hkk : (k' == p.1) with
    | true => rfl
    | false => exact ih

theorem lookup_setProp_other (fields : List (String × SValue)) (k k' : String)
    (v : SValue) (hne : k' ≠ k) :
    (setProp fields k v).lookup k' = fields.lookup k' := by
  unfold setProp
  split
  · exact lookup_map_other k k' v hne fields
  · exact lookup_append_single_other k k' v hne fields

theorem lookup_spreadInto_not_mem (extra : List (String × SValue)) :
    ∀ (base : List (String × SValue)) (k : String),
      (∀ p ∈ extra, p.1 ≠ k) →
      (spreadInto base extra).lookup k = base.lookup k := by
  induction extra with
  | nil => intro base k _; rfl
  | cons p ps ih =>
    intro base k hnm
    have hstep : (spreadInto base (p :: ps)) = spreadInto (setProp base p.1 p.2) ps := rfl
    rw [hstep, ih (setProp base p.1 p.2) k (fun q hq => hnm q (by simp [hq]))]
    exact lookup_setProp_other base p.1 k p.2
      (fun hk => (hnm p (by simp)) hk.symm)

theorem lookup_spreadInto (extra : List (String × SValue)) :
    ∀ (base : List (String × SValue)) (k : String) (v : SValue),
      (extra.map Prod.fst).Nodup → extra.lookup k = some v →
      (spreadInto base extra).lookup k = some v := by
  induction extra with
  | nil => intro base k v _ hl; simp [List.lookup] at hl
  | cons p ps ih =>
    intro base k v hnd hl
    have hstep : (spreadInto base (p :: ps)) = spreadInto (setProp base p.1 p.2) ps := rfl
    rw [hstep]
    rw [List.map_cons] at hnd
    by_cases hk : k = p.1
    · have hbeq : (k == p.1) = true := by simp [hk]
      rw [List.lookup] at hl
      rw [hbeq] at hl
      have hv : p.2 = v := by simpa using hl
      have hpn : p.1 ∉ ps.map Prod.fst := (List.nodup_cons.mp hnd).1
      have hnm : ∀ q ∈ ps, q.1 ≠ k := by
        intro q hq hqk
        have hqp : q.1 = p.1 := hqk.trans hk
        exact hpn (hqp ▸ List.mem_map_of_mem Prod.fst hq)
      rw [lookup_spreadInto_not_mem ps (setProp base p.1 p.2) k hnm, hk,
        lookup_setProp_self]
      exact congrArg some hv
    · have hbeq : (k == p.1) = false := by simp [hk]
      rw [List.lookup] at hl
      rw [hbeq] at hl
      exact ih (setProp base p.1 p.2) k v (List.nodup_cons.mp hnd).2 hl

/-- Claim C10: each rendered document is the object literal `id`
followed by the spread of the sanitized data fields, so a data field
named `id` overwrites the snapshot id in the rendered object. -/
theorem rendered_id_overwritten (h : Heap) (fuel : Nat) (d : RawDoc)
    (sfields : List (String × SValue)) (v : SValue) :
    (sanitizeDocData h fuel d.data = some sfields →
      renderDoc h fuel d = some (.obj (spreadInto [("id", .str d.id)] sfields))) ∧
    (sanitizeDocData h fuel d.data = some sfields →
      (sfields.map Prod.fst).Nodup →
      sfields.lookup "id" = some v →
      renderDoc h fuel d = some (.obj (spreadInto [("id", .str d.id)] sfields)) ∧
      (spreadInto [("id", .str d.id)] sfields).lookup "id" = some v) ∧
    renderDoc [] 3 ⟨"snap1", [("id", .str "DATA"), ("y", .num (.finite 2))]⟩ =
      some (.obj [("id", .str "DATA"), ("y", .num (.finite 2))]) := by
  refine ⟨?_, ?_, by rfl⟩
  · intro hs
    simp [renderDoc, hs]
  · intro hs hnd hid
    refine ⟨by simp [renderDoc, hs], ?_⟩
    exact lookup_spreadInto sfields [("id", .str d.id)] "id" v hnd hid

/-- Witness for C10: a document whose data has its own `id` field. -/
theorem rendered_id_overwritten_witness :
    renderDoc [] 3 ⟨"snap1", [("id", .str "DATA")]⟩ =
      some (.obj (spreadInto [("id", .str "snap1")] [("id", .str "DATA")])) ∧
    (spreadInto [("id", .str "snap1")] [("id", .str "DATA")]).lookup "id" =
      some (.str "DATA") := by
  have h := (rendered_id_overwritten [] 3 ⟨"snap1", [("id", .str "DATA")]⟩
      [("id", .str "DATA")] (.str "DATA")).2.1 rfl (by simp) rfl
  exact h

theorem foldl_whereF (fs : List FilterArg) :
    ∀ q : FsQuery, fs.foldl FsQuery.whereF q = { q with filters := q.filters ++ fs } := by
  induction fs with
  | nil => intro q; cases q; simp
  | cons f fs ih =>
    intro q
    rw [List.foldl_cons, ih]
    cases q
    simp [FsQuery.whereF]

theorem foldl_orderByF (os : List OrderByArg) :
    ∀ q : FsQuery, os.foldl FsQuery.orderByF q = { q with orders := q.orders ++ os } := by
  induction os with
  | nil => intro q; cases q; simp
  | cons o os ih =>
    intro q
    rw [List.foldl_cons, ih]
    cases q
    simp [FsQuery.orderByF]

theorem buildQuery_eq (coll : List RawDoc) (args : QueryArgs) :
    buildQuery coll args =
      { base := coll, filters := args.filters, orders := args.orderBy,
        limitN := args.limit } := by
  simp only [buildQuery]
  rw [foldl_whereF, foldl_orderByF]
  cases hl : args.limit with
  | none => simp
  | some n => simp [FsQuery.limitF]

theorem length_insertSorted (le : RawDoc → RawDoc → Bool) (d : RawDoc) :
    ∀ l : List RawDoc, (insertSorted le d l).length = l.length + 1 := by
  intro l
  induction l with
  | nil => rfl
  | cons e es ih =>
    rw [insertSorted]
    split
    · simp
    · simp [ih]

theorem length_sortDocs (le : RawDoc → RawDoc → Bool) :
    ∀ l : List RawDoc, (sortDocs le l).length = l.length := by
  intro l
  induction l with
  | nil => rfl
  | cons d ds ih =>
    rw [sortDocs, length_insertSorted, ih, List.length_cons]

/-- Claim C1 (amended): the reported aggregate count equals the size
of the result set of the filtered, ordered, and limited query object —
`min limit matching` when a limit is provided, the full matching count
otherwise — because the source attaches `limit` to the query before
running the count aggregation; sum/avg are computed over the fetched
(limited) documents. -/
theorem aggregate_count_respects_limit (h : Heap) (coll : List RawDoc)
    (args : QueryArgs) (fuel : Nat) (res : QueryExecResult) (n : Nat) :
    args.aggCount = true →
    queryFirestoreExec h coll args fuel = some res →
    (res.aggregateCount = some (fsGetDocs h fuel (buildQuery coll args)).length ∧
     (args.limit = some n →
        res.aggregateCount =
          some (min n (fsMatching h fuel (buildQuery coll args)).length)) ∧
     (args.limit = none →
        res.aggregateCount =
          some (fsMatching h fuel (buildQuery coll args)).length) ∧
     (∀ f, args.aggSum = some f →
        res.sumLine = some (formatNumericLine ("Sum of '" ++ f ++ "'")
          (collectNumericStats (fsGetDocs h fuel (buildQuery coll args)) f).sum
          (collectNumericStats (fsGetDocs h fuel (buildQuery coll args)) f).validCount
          (collectNumericStats (fsGetDocs h fuel (buildQuery coll args)) f).invalidCount)) ∧
     (∀ f, args.aggAvg = some f →
        res.avgLine = some (formatNumericLine ("Average of '" ++ f ++ "'")
          (collectNumericStats (fsGetDocs h fuel (buildQuery coll args)) f).average
          (collectNumericStats (fsGetDocs h fuel (buildQuery coll args)) f).validCount
          (collectNumericStats (fsGetDocs h fuel (buildQuery coll args)) f).invalidCount))) := by
  intro hc hexec
  simp only [queryFirestoreExec, hc, if_pos] at hexec
  cases hmap : (fsGetDocs h fuel (buildQuery coll args)).mapM (renderDoc h fuel) with
  | none => rw [hmap] at hexec; simp at hexec
  | some sdocs =>
    rw [hmap] at hexec
    simp only [Option.some.injEq] at hexec
    subst hexec
    refine ⟨rfl, ?_, ?_, ?_, ?_⟩
    · intro hlim
      have hgd : fsGetDocs h fuel (buildQuery coll args) =
          (sortDocs (fun a b => docCmpBy h (buildQuery coll args).orders a b ≠ Ordering.gt)
            (fsMatching h fuel (buildQuery coll args))).take n := by
        unfold fsGetDocs
        rw [show (buildQuery coll args).limitN = some n from by rw [buildQuery_eq]; exact hlim]
        rfl
      simp only [fsCount, hgd, List.length_take, length_sortDocs]
    · intro hlim
      have hgd : fsGetDocs h fuel (buildQuery coll args) =
          sortDocs (fun a b => docCmpBy h (buildQuery coll args).orders a b ≠ Ordering.gt)
            (fsMatching h fuel (buildQuery coll args)) := by
        unfold fsGetDocs
        rw [show (buildQuery coll args).limitN = none from by rw [buildQuery_eq]; exact hlim]
        rfl
      simp only [fsCount, hgd, length_sortDocs]
    · intro f hf
      simp [hf]
    · intro f hf
      simp [hf]

/-- Counterexample to Claim C1 as stated: on a two-document collection
where both documents match the filter `x == 1` and `limit 1` is given,
the reported aggregate count is 1, not the full filtered-set size 2 —
the source attaches the limit to the query before running the count
aggregation, and the client's count respects limit clauses. -/
theorem aggregate_count_limit_counterexample :
    (queryFirestoreExec [] cexColl cexArgs 3).map QueryExecResult.aggregateCount =
      some (some 1) ∧
    (fsMatching [] 3 (buildQuery cexColl cexArgs)).length = 2 ∧
    (1 : Nat) ≠ 2 := by
  refine ⟨by rfl, by rfl, by decide⟩

/-- Witness for amended C1: the concrete scenario, where the reported
count equals `min 1 2`. -/
theorem aggregate_count_respects_limit_witness :
    ({ foundCount := 1, aggregateCount := some 1, sumLine := none, avgLine := none,
       sanitizedDocs := [.obj [("id", .str "d1"), ("x", .num (.finite 1))]] } :
      QueryExecResult).aggregateCount =
      some (min 1 (fsMatching [] 3 (buildQuery cexColl cexArgs)).length) := by
  have h := aggregate_count_respects_limit [] cexColl cexArgs 3
      { foundCount := 1, aggregateCount := some 1, sumLine := none, avgLine := none,
        sanitizedDocs := [.obj [("id", .str "d1"), ("x", .num (.finite 1))]] } 1
      rfl rfl
  exact h.2.1 rfl

theorem cyclic_array_no_fuel :
    ∀ (fuel : Nat) (seen : List Nat),
      sanitizeFuel cyclicArrayHeap fuel seen (.ref 0) = none := by
  intro fuel
  induction fuel with
  | zero => intro seen; rfl
  | succ f ih =>
    intro seen
    have hlook : (cyclicArrayHeap[(0 : Nat)]?) = some (HeapObj.arr [.ref 0]) := rfl
    simp only [sanitizeFuel, hlook, mapAccumOpt, ih seen]

/-- Counterexample to Claim C9 as stated: a self-containing array
diverges — the cycle guard protects only the generic-object branch,
and the array branch recurses into elements without consulting or
extending the `seen` set, so no call-stack budget suffices. -/
theorem sanitize_cyclic_array_diverges : sanitizeDiverges cyclicArrayHeap (.ref 0) := by
  intro fuel
  unfold sanitizeFirestoreValue
  rw [cyclic_array_no_fuel fuel []]
  rfl

theorem mapAccumOpt_mono_lift {α β : Type}
    (g1 g2 : List Nat → α → Option (β × List Nat))
    (hlift : ∀ s a r, g1 s a = some r → g2 s a = some r) :
    ∀ (l : List α) (s : List Nat) (r),
      mapAccumOpt g1 s l = some r → mapAccumOpt g2 s l = some r := by
  intro l
  induction l with
  | nil => intro s r hr; simpa using hr
  | cons a as ih =>
    intro s r hr
    cases hg : g1 s a with
    | none => simp [mapAccumOpt, hg] at hr
    | some p =>
      obtain ⟨b1, s1⟩ := p
      cases hm : mapAccumOpt g1 s1 as with
      | none => simp [mapAccumOpt, hg, hm] at hr
      | some pr =>
        obtain ⟨bs, s2⟩ := pr
        simp only [mapAccumOpt, hg, hm] at hr
        simp only [mapAccumOpt, hlift s a _ hg, ih s1 _ hm]
        exact hr

theorem sanitizeObjectFields_lift
    (rec1 rec2 : List Nat → JSValue → Option (SValue × List Nat))
    (hlift : ∀ s v r, rec1 s v = some r → rec2 s v = some r)
    (i : Nat) (seen : List Nat) (fields : List (String × JSValue))
    (r : SValue × List Nat) :
    sanitizeObjectFields rec1 i seen fields = some r →
    sanitizeObjectFields rec2 i seen fields = some r := by
  unfold sanitizeObjectFields
  split
  · exact id
  · intro hr
    have hstep : ∀ (s : List Nat) (kv : String × JSValue)
        (pr : (String × SValue) × List Nat),
        (match rec1 s kv.2 with
         | none => none
         | some (r, s1) => some ((kv.1, r), s1)) = some pr →
        (match rec2 s kv.2 with
         | none => none
         | some (r, s1) => some ((kv.1, r), s1)) = some pr := by
      intro s kv pr hpr
      cases hrec : rec1 s kv.2 with
      | none => simp [hrec] at hpr
      | some q =>
        obtain ⟨q1, q2⟩ := q
        simp only [hrec] at hpr
        simp only [hlift s kv.2 (q1, q2) hrec]
        exact hpr
    cases hm : mapAccumOpt (fun s kv =>
        match rec1 s kv.2 with
        | none => none
        | some (r, s1) => some ((kv.1, r), s1)) (i :: seen) fields with
    | none => simp [hm] at hr
    | some p =>
      simp only [hm] at hr
      simp only [mapAccumOpt_mono_lift _ _ hstep fields (i :: seen) p hm]
      exact hr

theorem sanitizeFuel_mono (h : Heap) :
    ∀ (f : Nat) (seen : List Nat) (v : JSValue) (r : SValue × List Nat),
      sanitizeFuel h f seen v = some r →
      ∀ g, f ≤ g → sanitizeFuel h g seen v = some r := by
  intro f
  induction f with
  | zero => intro seen v r hr; simp [sanitizeFuel] at hr
  | succ f ih =>
    intro seen v r hr g hg
    obtain ⟨g', rfl⟩ : ∃ g', g = g' + 1 := ⟨g - 1, by omega⟩
    have hfg : f ≤ g' := by omega
    have hlift : ∀ (s : List Nat) (w : JSValue) (r : SValue × List Nat),
        sanitizeFuel h f s w = some r → sanitizeFuel h g' s w = some r :=
      fun s w r hr => ih s w r hr g' hfg
    cases v with
    | null => exact hr
    | undefined => exact hr
    | num n => exact hr
    | str s => exact hr
    | bool b => exact hr
    | bigint i => exact hr
    | exotic ty sr => exact hr
    | ref i =>
      cases hlook : h[i]? with
      | none => simp [sanitizeFuel, hlook] at hr
      | some obj =>
        cases obj with
        | date iso =>
          simp only [sanitizeFuel, hlook] at hr ⊢
          exact hr
        | buffer b64 =>
          simp only [sanitizeFuel, hlook] at hr ⊢
          exact hr
        | timestamp ok iso sec nsec =>
          simp only [sanitizeFuel, hlook] at hr ⊢
          exact hr
        | geopoint la lo =>
          simp only [sanitizeFuel, hlook] at hr ⊢
          exact hr
        | docref p d =>
          simp only [sanitizeFuel, hlook] at hr ⊢
          exact hr
        | arr elems =>
          cases hm : mapAccumOpt (fun s e => sanitizeFuel h f s e) seen elems with
          | none => simp [sanitizeFuel, hlook, hm] at hr
          | some p =>
            simp only [sanitizeFuel, hlook, hm] at hr
            simp only [sanitizeFuel, hlook,
              mapAccumOpt_mono_lift _ _ hlift elems seen p hm]
            exact hr
        | withToJSON ok jv fields =>
          cases ok with
          | true =>
            simp only [sanitizeFuel, hlook, if_true] at hr ⊢
            exact hlift seen jv r hr
          | false =>
            simp only [sanitizeFuel, hlook, Bool.false_eq_true, if_false] at hr ⊢
            exact sanitizeObjectFields_lift _ _ hlift i seen fields r hr
        | plain fields =>
          simp only [sanitizeFuel, hlook] at hr ⊢
          exact sanitizeObjectFields_lift _ _ hlift i seen fields r hr

theorem mapAccumOpt_seen_grow {α β : Type}
    (g : List Nat → α → Option (β × List Nat))
    (hg : ∀ s a b s2, g s a = some (b, s2) → ∃ p, s2 = p ++ s) :
    ∀ (l : List α) (s : List Nat) (bs : List β) (s2 : List Nat),
      mapAccumOpt g s l = some (bs, s2) → ∃ p, s2 = p ++ s := by
  intro l
  induction l with
  | nil =>
    intro s bs s2 hr
    simp only [mapAccumOpt, Option.some.injEq, Prod.mk.injEq] at hr
    exact ⟨[], by simp [← hr.2]⟩
  | cons a as ih =>
    intro s bs s2 hr
    cases hga : g s a with
    | none => simp [mapAccumOpt, hga] at hr
    | some p =>
      obtain ⟨b1, s1⟩ := p
      cases hm : mapAccumOpt g s1 as with
      | none => simp [mapAccumOpt, hga, hm] at hr
      | some pr =>
        obtain ⟨bs2, s3⟩ := pr
        simp only [mapAccumOpt, hga, hm, Option.some.injEq, Prod.mk.injEq] at hr
        obtain ⟨p1, hp1⟩ := hg s a b1 s1 hga
        obtain ⟨p2, hp2⟩ := ih s1 bs2 s3 hm
        exact ⟨p2 ++ p1, by rw [← hr.2, hp2, hp1, List.append_assoc]⟩

theorem sanitizeObjectFields_seen_grow
    (rec : List Nat → JSValue → Option (SValue × List Nat))
    (hrec : ∀ s v sv s2, rec s v = some (sv, s2) → ∃ p, s2 = p ++ s)
    (i : Nat) (seen : List Nat) (fields : List (String × JSValue))
    (s : SValue) (seen2 : List Nat) :
    sanitizeObjectFields rec i seen fields = some (s, seen2) →
    ∃ p, seen2 = p ++ seen := by
  unfold sanitizeObjectFields
  split
  · intro hr
    simp only [Option.some.injEq, Prod.mk.injEq] at hr
    exact ⟨[], by simp [← hr.2]⟩
  · intro hr
    have hg : ∀ (s' : List Nat) (kv : String × JSValue) (b : String × SValue)
        (s2 : List Nat),
        (match rec s' kv.2 with
         | none => none
         | some (r, s1) => some ((kv.1, r), s1)) = some (b, s2) →
        ∃ p, s2 = p ++ s' := by
      intro s' kv b s2 hpr
      cases hq : rec s' kv.2 with
      | none => simp [hq] at hpr
      | some q =>
        obtain ⟨q1, q2⟩ := q
        simp only [hq, Option.some.injEq, Prod.mk.injEq] at hpr
        obtain ⟨p, hp⟩ := hrec s' kv.2 q1 q2 hq
        exact ⟨p, by rw [← hpr.2, hp]⟩
    cases hm : mapAccumOpt (fun s kv =>
        match rec s kv.2 with
        | none => none
        | some (r, s1) => some ((kv.1, r), s1)) (i :: seen) fields with
    | none => simp [hm] at hr
    | some p =>
      obtain ⟨fs, s3⟩ := p
      simp only [hm, Option.some.injEq, Prod.mk.injEq] at hr
      obtain ⟨pp, hpp⟩ := mapAccumOpt_seen_grow _ hg fields (i :: seen) fs s3 hm
      exact ⟨pp ++ [i], by rw [← hr.2, hpp]; simp⟩

theorem sanitizeFuel_seen_grow (h : Heap) :
    ∀ (f : Nat) (seen : List Nat) (v : JSValue) (s : SValue) (seen2 : List Nat),
      sanitizeFuel h f seen v = some (s, seen2) → ∃ p, seen2 = p ++ seen := by
  intro f
  induction f with
  | zero => intro seen v s seen2 hr; simp [sanitizeFuel] at hr
  | succ f ih =>
    intro seen v s seen2 hr
    have hrec : ∀ (s' : List Nat) (w : JSValue) (sv : SValue) (s2 : List Nat),
        sanitizeFuel h f s' w = some (sv, s2) → ∃ p, s2 = p ++ s' :=
      fun s' w sv s2 hw => ih s' w sv s2 hw
    cases v with
    | null =>
      simp only [sanitizeFuel, Option.some.injEq, Prod.mk.injEq] at hr
      exact ⟨[], by simp [← hr.2]⟩
    | undefined =>
      simp only [sanitizeFuel, Option.some.injEq, Prod.mk.injEq] at hr
      exact ⟨[], by simp [← hr.2]⟩
    | num n =>
      simp only [sanitizeFuel, Option.some.injEq, Prod.mk.injEq] at hr
      exact ⟨[], by simp [← hr.2]⟩
    | str s' =>
      simp only [sanitizeFuel, Option.some.injEq, Prod.mk.injEq] at hr
      exact ⟨[], by simp [← hr.2]⟩
    | bool b =>
      simp only [sanitizeFuel, Option.some.injEq, Prod.mk.injEq] at hr
      exact ⟨[], by simp [← hr.2]⟩
    | bigint j =>
      simp only [sanitizeFuel, Option.some.injEq, Prod.mk.injEq] at hr
      exact ⟨[], by simp [← hr.2]⟩
    | exotic ty sr =>
      simp only [sanitizeFuel, Option.some.injEq, Prod.mk.injEq] at hr
      exact ⟨[], by simp [← hr.2]⟩
    | ref i =>
      cases hlook : h[i]? with
      | none => simp [sanitizeFuel, hlook] at hr
      | some obj =>
        cases obj with
        | date iso =>
          simp only [sanitizeFuel, hlook, Option.some.injEq, Prod.mk.injEq] at hr
          exact ⟨[], by simp [← hr.2]⟩
        | buffer b64 =>
          simp only [sanitizeFuel, hlook, Option.some.injEq, Prod.mk.injEq] at hr
          exact ⟨[], by simp [← hr.2]⟩
        | timestamp ok iso sec nsec =>
          simp only [sanitizeFuel, hlook] at hr
          cases ok with
          | true =>
            simp only [if_true] at hr
            simp only [Option.some.injEq, Prod.mk.injEq] at hr
            exact ⟨[], by simp [← hr.2]⟩
          | false =>
            simp only [Bool.false_eq_true, if_false] at hr
            simp only [Option.some.injEq, Prod.mk.injEq] at hr
            exact ⟨[], by simp [← hr.2]⟩
        | geopoint la lo =>
          simp only [sanitizeFuel, hlook, Option.some.injEq, Prod.mk.injEq] at hr
          exact ⟨[], by simp [← hr.2]⟩
        | docref pth d =>
          simp only [sanitizeFuel, hlook, Option.some.injEq, Prod.mk.injEq] at hr
          exact ⟨[], by simp [← hr.2]⟩
        | arr elems =>
          simp only [sanitizeFuel, hlook] at hr
          cases hm : mapAccumOpt (fun s e => sanitizeFuel h f s e) seen elems with
          | none => rw [hm] at hr; simp at hr
          | some p =>
            obtain ⟨vs, s3⟩ := p
            rw [hm] at hr
            simp only [Option.some.injEq, Prod.mk.injEq] at hr
            obtain ⟨pp, hpp⟩ := mapAccumOpt_seen_grow _
              (fun s' a b s2 hb => hrec s' a b s2 hb) elems seen vs s3 hm
            exact ⟨pp, by rw [← hr.2, hpp]⟩
        | withToJSON ok jv fields =>
          cases ok with
          | true =>
            simp only [sanitizeFuel, hlook, if_true] at hr
            exact hrec seen jv s seen2 hr
          | false =>
            simp only [sanitizeFuel, hlook, Bool.false_eq_true, if_false] at hr
            exact sanitizeObjectFields_seen_grow _ hrec i seen fields s seen2 hr
        | plain fields =>
          simp only [sanitizeFuel, hlook] at hr
          exact sanitizeObjectFields_seen_grow _ hrec i seen fields s seen2 hr

theorem unseenCount_le_of_grow (h : Heap) (s p : List Nat) :
    unseenCount h (p ++ s) ≤ unseenCount h s := by
  apply List.Sublist.length_le
  apply List.monotone_filter_right
  intro a ha
  simp only [decide_eq_true_eq] at ha ⊢
  intro hmem
  exact ha (List.mem_append_right p hmem)

theorem length_filter_lt_of_flip {α : Type} (p q : α → Bool)
    (hpq : ∀ a, p a = true → q a = true) :
    ∀ (l : List α) (a : α), a ∈ l → p a = false → q a = true →
      (l.filter p).length < (l.filter q).length := by
  intro l
  induction l with
  | nil => intro a ha; simp at ha
  | cons b bs ih =>
    intro a ha hpa hqa
    rcases List.mem_cons.mp ha with rfl | hmem
    · rw [List.filter_cons_of_neg (by simp [hpa]),
        List.filter_cons_of_pos (by simp [hqa])]
      have hmono : (bs.filter p).length ≤ (bs.filter q).length :=
        (List.monotone_filter_right bs hpq).length_le
      simp only [List.length_cons]
      omega
    · by_cases hpb : p b = true
      · rw [List.filter_cons_of_pos (by simp [hpb]),
          List.filter_cons_of_pos (by simp [hpq b hpb])]
        have := ih a hmem hpa hqa
        simp only [List.length_cons]
        omega
      · rw [List.filter_cons_of_neg (by simp [hpb])]
        by_cases hqb : q b = true
        · rw [List.filter_cons_of_pos (by simp [hqb])]
          have := ih a hmem hpa hqa
          simp only [List.length_cons]
          omega
        · rw [List.filter_cons_of_neg (by simp [hqb])]
          exact ih a hmem hpa hqa

theorem unseenCount_cons_lt (h : Heap) (seen : List Nat) (i : Nat)
    (hi : i < h.length) (hni : i ∉ seen) :
    unseenCount h (i :: seen) < unseenCount h seen := by
  unfold unseenCount
  apply length_filter_lt_of_flip _ _ ?_ _ i (List.mem_range.mpr hi) (by simp) (by simp [hni])
  intro a ha
  simp only [decide_eq_true_eq] at ha ⊢
  intro hmem
  exact ha (List.mem_cons_of_mem i hmem)

theorem mapAccumOpt_exists_fuel {α β : Type}
    (F : Nat → List Nat → α → Option (β × List Nat))
    (mono : ∀ (f g : Nat) (s : List Nat) (a : α) (r : β × List Nat),
      f ≤ g → F f s a = some r → F g s a = some r)
    (P : List Nat → Prop) :
    ∀ (l : List α),
      (∀ a ∈ l, ∀ s, P s → ∃ f b s2, F f s a = some (b, s2) ∧ P s2) →
      ∀ s, P s → ∃ f bs s2, mapAccumOpt (F f) s l = some (bs, s2) ∧ P s2 := by
  intro l
  induction l with
  | nil => intro _ s hs; exact ⟨1, [], s, rfl, hs⟩
  | cons a as ih =>
    intro hstep s hs
    obtain ⟨f1, b1, s1, hF1, hP1⟩ := hstep a (by simp) s hs
    obtain ⟨f2, bs, s2, hM, hP2⟩ :=
      ih (fun a' ha' s' hs' => hstep a' (List.mem_cons_of_mem a ha') s' hs') s1 hP1
    refine ⟨max f1 f2, b1 :: bs, s2, ?_, hP2⟩
    have hF1' := mono f1 (max f1 f2) s a (b1, s1) (le_max_left f1 f2) hF1
    have hM' : mapAccumOpt (F (max f1 f2)) s1 as = some (bs, s2) :=
      mapAccumOpt_mono_lift (F f2) (F (max f1 f2))
        (fun s' a' r' => mono f2 (max f1 f2) s' a' r' (le_max_right f1 f2))
        as s1 (bs, s2) hM
    simp only [mapAccumOpt, hF1', hM']

theorem sanitize_exists_fuel (h : Heap) (hg : GoodHeap h) :
    ∀ (u : Nat) (b : Nat), b ≤ h.length →
      ∀ (v : JSValue), refBelow v b →
      ∀ (seen : List Nat), unseenCount h seen ≤ u →
      ∃ fuel s2 seen2, sanitizeFuel h fuel seen v = some (s2, seen2) := by
  intro u
  induction u using Nat.strong_induction_on with
  | _ u uih =>
    intro b
    induction b using Nat.strong_induction_on with
    | _ b bih =>
      intro hb v hv seen hseen
      cases v with
      | null => exact ⟨1, .null, seen, rfl⟩
      | undefined => exact ⟨1, .null, seen, rfl⟩
      | num n => exact ⟨1, .num n, seen, rfl⟩
      | str s => exact ⟨1, .str s, seen, rfl⟩
      | bool bb => exact ⟨1, .bool bb, seen, rfl⟩
      | bigint j => exact ⟨1, .str (toString j), seen, rfl⟩
      | exotic ty sr => exact ⟨1, .str sr, seen, rfl⟩
      | ref i =>
        have hib : i < b := by simpa [refBelow] using hv
        have hih : i < h.length := lt_of_lt_of_le hib hb
        have hobj : h[i]? = some h[i] := List.getElem?_eq_getElem hih
        have hgo := hg i h[i] hobj
        cases hoc : h[i] with
        | date iso => exact ⟨1, .str iso, seen, by simp [sanitizeFuel, hoc ▸ hobj]⟩
        | buffer b64 => exact ⟨1, .str b64, seen, by simp [sanitizeFuel, hoc ▸ hobj]⟩
        | geopoint la lo =>
          exact ⟨1, .obj [("latitude", .num la), ("longitude", .num lo)], seen,
            by simp [sanitizeFuel, hoc ▸ hobj]⟩
        | docref pth d =>
          exact ⟨1, .obj [("path", .str pth), ("id", .str d)], seen,
            by simp [sanitizeFuel, hoc ▸ hobj]⟩
        | timestamp ok iso sec nsec =>
          cases ok with
          | true => exact ⟨1, .str iso, seen, by simp [sanitizeFuel, hoc ▸ hobj]⟩
          | false =>
            exact ⟨1, .obj [("seconds", .num sec), ("nanoseconds", .num nsec)], seen,
              by simp [sanitizeFuel, hoc ▸ hobj]⟩
        | arr elems =>
          rw [hoc] at hgo
          have hstep : ∀ e ∈ elems, ∀ s, unseenCount h s ≤ u →
              ∃ f r s2, sanitizeFuel h f s e = some (r, s2) ∧ unseenCount h s2 ≤ u := by
            intro e he s hs
            obtain ⟨f, r, s2, hf⟩ := bih i hib (le_of_lt hih) e (hgo e he) s hs
            refine ⟨f, r, s2, hf, ?_⟩
            obtain ⟨p, hp⟩ := sanitizeFuel_seen_grow h f s e r s2 hf
            calc unseenCount h s2 = unseenCount h (p ++ s) := by rw [hp]
              _ ≤ unseenCount h s := unseenCount_le_of_grow h s p
              _ ≤ u := hs
          obtain ⟨f, vs, s2, hM, _⟩ := mapAccumOpt_exists_fuel
            (fun f s e => sanitizeFuel h f s e)
            (fun f g s a r hfg hr => sanitizeFuel_mono h f s a r hr g hfg)
            (fun s => unseenCount h s ≤ u) elems hstep seen hseen
          exact ⟨f + 1, .arr vs, s2, by simp [sanitizeFuel, hoc ▸ hobj, hM]⟩
        | withToJSON ok jv fields =>
          rw [hoc] at hgo
          cases ok with
          | true =>
            obtain ⟨f, r, s2, hf⟩ := bih i hib (le_of_lt hih) jv hgo seen hseen
            exact ⟨f + 1, r, s2, by simp [sanitizeFuel, hoc ▸ hobj, hf]⟩
          | false =>
            by_cases hmem : i ∈ seen
            · exact ⟨1, .str "[Circular]", seen,
                by simp [sanitizeFuel, hoc ▸ hobj, sanitizeObjectFields, hmem]⟩
            · have hlt : unseenCount h (i :: seen) < u :=
                lt_of_lt_of_le (unseenCount_cons_lt h seen i hih hmem) hseen
              have hstep : ∀ kv ∈ fields, ∀ s,
                  unseenCount h s ≤ unseenCount h (i :: seen) →
                  ∃ f r s2, (match sanitizeFuel h f s (Prod.snd kv) with
                    | none => none
                    | some (r, s1) => some ((kv.1, r), s1)) = some (r, s2) ∧
                    unseenCount h s2 ≤ unseenCount h (i :: seen) := by
                intro kv hkv s hs
                obtain ⟨f, r, s2, hf⟩ := uih (unseenCount h (i :: seen)) hlt h.length
                  le_rfl kv.2 (hgo kv hkv) s hs
                refine ⟨f, (kv.1, r), s2, by simp [hf], ?_⟩
                obtain ⟨p, hp⟩ := sanitizeFuel_seen_grow h f s kv.2 r s2 hf
                calc unseenCount h s2 = unseenCount h (p ++ s) := by rw [hp]
                  _ ≤ unseenCount h s := unseenCount_le_of_grow h s p
                  _ ≤ unseenCount h (i :: seen) := hs
              obtain ⟨f, fs, s2, hM, _⟩ := mapAccumOpt_exists_fuel
                (fun f s kv => match sanitizeFuel h f s (Prod.snd kv) with
                  | none => none
                  | some (r, s1) => some ((kv.1, r), s1))
                (fun f g s kv r hfg hr => by
                  cases hq : sanitizeFuel h f s kv.2 with
                  | none => simp [hq] at hr
                  | some q =>
                    simp only [hq] at hr
                    simp only [sanitizeFuel_mono h f s kv.2 q hq g hfg]
                    exact hr)
                (fun s => unseenCount h s ≤ unseenCount h (i :: seen))
                fields hstep (i :: seen) le_rfl
              exact ⟨f + 1, .obj fs, s2,
                by simp [sanitizeFuel, hoc ▸ hobj, sanitizeObjectFields, hmem, hM]⟩
        | plain fields =>
          rw [hoc] at hgo
          by_cases hmem : i ∈ seen
          · exact ⟨1, .str "[Circular]", seen,
              by simp [sanitizeFuel, hoc ▸ hobj, sanitizeObjectFields, hmem]⟩
          · have hlt : unseenCount h (i :: seen) < u :=
              lt_of_lt_of_le (unseenCount_cons_lt h seen i hih hmem) hseen
            have hstep : ∀ kv ∈ fields, ∀ s,
                unseenCount h s ≤ unseenCount h (i :: seen) →
                ∃ f r s2, (match sanitizeFuel h f s (Prod.snd kv) with
                  | none => none
                  | some (r, s1) => some ((kv.1, r), s1)) = some (r, s2) ∧
                  unseenCount h s2 ≤ unseenCount h (i :: seen) := by
              intro kv hkv s hs
              obtain ⟨f, r, s2, hf⟩ := uih (unseenCount h (i :: seen)) hlt h.length
                le_rfl kv.2 (hgo kv hkv) s hs
              refine ⟨f, (kv.1, r), s2, by simp [hf], ?_⟩
              obtain ⟨p, hp⟩ := sanitizeFuel_seen_grow h f s kv.2 r s2 hf
              calc unseenCount h s2 = unseenCount h (p ++ s) := by rw [hp]
                _ ≤ unseenCount h s := unseenCount_le_of_grow h s p
                _ ≤ unseenCount h (i :: seen) := hs
            obtain ⟨f, fs, s2, hM, _⟩ := mapAccumOpt_exists_fuel
              (fun f s kv => match sanitizeFuel h f s (Prod.snd kv) with
                | none => none
                | some (r, s1) => some ((kv.1, r), s1))
              (fun f g s kv r hfg hr => by
                cases hq : sanitizeFuel h f s kv.2 with
                | none => simp [hq] at hr
                | some q =>
                  simp only [hq] at hr
                  simp only [sanitizeFuel_mono h f s kv.2 q hq g hfg]
                  exact hr)
              (fun s => unseenCount h s ≤ unseenCount h (i :: seen))
              fields hstep (i :: seen) le_rfl
            exact ⟨f + 1, .obj fs, s2,
              by simp [sanitizeFuel, hoc ▸ hobj, sanitizeObjectFields, hmem, hM]⟩

/-- Claim C9 (amended): every branch of the sanitizer falls back to a
terminal representation instead of propagating an exception (failing
Timestamp conversion, throwing toJSON hook, revisited generic object,
unclassified value), and the sanitizer terminates and returns a result
for every value over a heap whose arrays and successful toJSON results
do not participate in cycles — generic-object cycles, cut by the seen
set, are allowed.  A cycle passing only through arrays, however,
recurses unboundedly, as the separate counterexample shows. -/
theorem sanitize_total_amended (h : Heap) (v : JSValue)
    (hg : GoodHeap h) (hv : refBelow v h.length) :
    (∃ fuel s, sanitizeFirestoreValue h fuel v = some s) ∧
    (∀ (fuel : Nat) (seen : List Nat) (i : Nat) (iso : String) (sec nsec : JSNum),
      h[i]? = some (.timestamp false iso sec nsec) →
      sanitizeFuel h (fuel + 1) seen (.ref i) =
        some (.obj [("seconds", .num sec), ("nanoseconds", .num nsec)], seen)) ∧
    (∀ (fuel : Nat) (seen : List Nat) (i : Nat) (jv : JSValue)
        (fields : List (String × JSValue)),
      h[i]? = some (.withToJSON false jv fields) →
      sanitizeFuel h (fuel + 1) seen (.ref i) =
        sanitizeObjectFields (fun s e => sanitizeFuel h fuel s e) i seen fields) ∧
    (∀ (fuel : Nat) (seen : List Nat) (ty sr : String),
      sanitizeFuel h (fuel + 1) seen (.exotic ty sr) = some (.str sr, seen)) := by
  refine ⟨?_, ?_, ?_, ?_⟩
  · obtain ⟨fuel, s2, seen2, hf⟩ := sanitize_exists_fuel h hg (unseenCount h [])
      h.length le_rfl v hv [] le_rfl
    exact ⟨fuel, s2, by simp [sanitizeFirestoreValue, hf]⟩
  · intro fuel seen i iso sec nsec hio
    simp [sanitizeFuel, hio]
  · intro fuel seen i jv fields hio
    simp [sanitizeFuel, hio]
  · intro fuel seen ty sr
    rfl

/-- Witness for amended C9: the self-referential plain-object heap is
good (its only cycle passes through the seen-guarded edge) and the
sanitizer terminates on it. -/
theorem sanitize_total_amended_witness :
    ∃ fuel s, sanitizeFirestoreValue selfRefHeap fuel (.ref 0) = some s := by
  have hg : GoodHeap selfRefHeap := by
    intro i obj hio
    cases i with
    | zero =>
      have hz : selfRefHeap[(0 : Nat)]? = some (HeapObj.plain
          [("self", .ref 0), ("label", .str "node"), ("x", .num (.finite 1))]) := rfl
      rw [hz] at hio
      injection hio with hh
      subst hh
      intro kv hkv
      simp only [List.mem_cons, List.not_mem_nil, or_false] at hkv
      rcases hkv with rfl | rfl | rfl <;> simp [refBelow, selfRefHeap]
    | succ n => simp [selfRefHeap] at hio
  exact (sanitize_total_amended selfRefHeap (.ref 0) hg
    (by simp [refBelow, selfRefHeap])).1

theorem sizeOf_lt_of_mem_sval {e : SValue} :
    ∀ {es : List SValue}, e ∈ es → sizeOf e < sizeOf es := by
  intro es
  induction es with
  | nil => intro h; simp at h
  | cons a as ih =>
    intro h
    rcases List.mem_cons.mp h with rfl | hm
    · simp
      omega
    · have := ih hm
      simp
      omega

theorem sizeOf_snd_lt_of_mem_fields {kv : String × SValue} :
    ∀ {fs : List (String × SValue)}, kv ∈ fs → sizeOf kv.2 < sizeOf fs := by
  intro fs
  induction fs with
  | nil => intro h; simp at h
  | cons a as ih =>
    intro h
    rcases List.mem_cons.mp h with rfl | hm
    · obtain ⟨k, v⟩ := kv
      simp
      omega
    · have := ih hm
      simp
      omega

theorem svalue_sizeOf_pos (s : SValue) : 1 ≤ sizeOf s := by
  cases s <;> simp_arith

theorem push_extends (N : Nat) :
    (∀ s : SValue, sizeOf s ≤ N → ∀ h0 : Heap, ∃ t, (pushSVal s h0).1 = h0 ++ t) ∧
    (∀ es : List SValue, sizeOf es ≤ N → ∀ h0 : Heap,
      ∃ t, (pushList es h0).1 = h0 ++ t) ∧
    (∀ fs : List (String × SValue), sizeOf fs ≤ N → ∀ h0 : Heap,
      ∃ t, (pushFields fs h0).1 = h0 ++ t) := by
  induction N using Nat.strong_induction_on with
  | _ N ih =>
    refine ⟨?_, ?_, ?_⟩
    · intro s hs h0
      cases s with
      | null => exact ⟨[], by simp [pushSVal]⟩
      | num n => exact ⟨[], by simp [pushSVal]⟩
      | str s => exact ⟨[], by simp [pushSVal]⟩
      | bool b => exact ⟨[], by simp [pushSVal]⟩
      | arr es =>
        have hN : 1 ≤ N := le_trans (svalue_sizeOf_pos _) hs
        have hes : sizeOf es ≤ N - 1 := by simp at hs; omega
        obtain ⟨t, ht⟩ := (ih (N - 1) (by omega)).2.1 es hes h0
        refine ⟨t ++ [.arr (pushList es h0).2], ?_⟩
        simp only [pushSVal]
        rw [ht, List.append_assoc]
      | obj fs =>
        have hN : 1 ≤ N := le_trans (svalue_sizeOf_pos _) hs
        have hfs : sizeOf fs ≤ N - 1 := by simp at hs; omega
        obtain ⟨t, ht⟩ := (ih (N - 1) (by omega)).2.2 fs hfs h0
        refine ⟨t ++ [.plain (pushFields fs h0).2], ?_⟩
        simp only [pushSVal]
        rw [ht, List.append_assoc]
    · intro es hes h0
      cases es with
      | nil => exact ⟨[], by simp [pushList]⟩
      | cons e rest =>
        have hsz : sizeOf (e :: rest) = 1 + sizeOf e + sizeOf rest := by simp
        have hN : 1 ≤ N := by omega
        have he : sizeOf e ≤ N - 1 := by omega
        have hrest : sizeOf rest ≤ N - 1 := by omega
        obtain ⟨t1, ht1⟩ := (ih (N - 1) (by omega)).1 e he h0
        obtain ⟨t2, ht2⟩ := (ih (N - 1) (by omega)).2.1 rest hrest (pushSVal e h0).1
        refine ⟨t1 ++ t2, ?_⟩
        simp only [pushList]
        rw [ht2, ht1, List.append_assoc]
    · intro fs hfs h0
      cases fs with
      | nil => exact ⟨[], by simp [pushFields]⟩
      | cons kv rest =>
        obtain ⟨k, v⟩ := kv
        have hsz : sizeOf ((k, v) :: rest) = 1 + (1 + sizeOf k + sizeOf v) + sizeOf rest := by
          simp
        have hN : 1 ≤ N := by omega
        have hv : sizeOf v ≤ N - 1 := by omega
        have hrest : sizeOf rest ≤ N - 1 := by omega
        obtain ⟨t1, ht1⟩ := (ih (N - 1) (by omega)).1 v hv h0
        obtain ⟨t2, ht2⟩ := (ih (N - 1) (by omega)).2.2 rest hrest (pushSVal v h0).1
        refine ⟨t1 ++ t2, ?_⟩
        simp only [pushFields]
        rw [ht2, ht1, List.append_assoc]

theorem pushSVal_length_le (s : SValue) (h0 : Heap) :
    h0.length ≤ (pushSVal s h0).1.length := by
  obtain ⟨t, ht⟩ := (push_extends (sizeOf s)).1 s le_rfl h0
  simp [ht]

theorem pushList_length_le (es : List SValue) (h0 : Heap) :
    h0.length ≤ (pushList es h0).1.length := by
  obtain ⟨t, ht⟩ := (push_extends (sizeOf es)).2.1 es le_rfl h0
  simp [ht]

theorem pushFields_length_le (fs : List (String × SValue)) (h0 : Heap) :
    h0.length ≤ (pushFields fs h0).1.length := by
  obtain ⟨t, ht⟩ := (push_extends (sizeOf fs)).2.2 fs le_rfl h0
  simp [ht]

theorem push_roundtrip (N : Nat) :
    (∀ s : SValue, sizeOf s ≤ N →
      ∀ (h0 H ext : Heap) (seen : List Nat) (fuel : Nat),
        H = (pushSVal s h0).1 ++ ext →
        (∀ j ∈ seen, j < h0.length ∨ (pushSVal s h0).1.length ≤ j) →
        sizeOf s ≤ fuel →
        ∃ seen2, sanitizeFuel H fuel seen (pushSVal s h0).2 = some (s, seen2) ∧
          ∀ x ∈ seen2, x ∈ seen ∨ x < (pushSVal s h0).1.length) ∧
    (∀ es : List SValue, sizeOf es ≤ N →
      ∀ (h0 H ext : Heap) (seen : List Nat) (fuel : Nat),
        H = (pushList es h0).1 ++ ext →
        (∀ j ∈ seen, j < h0.length ∨ (pushList es h0).1.length ≤ j) →
        (∀ e ∈ es, sizeOf e ≤ fuel) →
        ∃ seen2, mapAccumOpt (fun st e => sanitizeFuel H fuel st e) seen
            (pushList es h0).2 = some (es, seen2) ∧
          ∀ x ∈ seen2, x ∈ seen ∨ x < (pushList es h0).1.length) ∧
    (∀ fs : List (String × SValue), sizeOf fs ≤ N →
      ∀ (h0 H ext : Heap) (seen : List Nat) (fuel : Nat),
        H = (pushFields fs h0).1 ++ ext →
        (∀ j ∈ seen, j < h0.length ∨ (pushFields fs h0).1.length ≤ j) →
        (∀ kv ∈ fs, sizeOf kv.2 ≤ fuel) →
        ∃ seen2, mapAccumOpt (fun st kv =>
            match sanitizeFuel H fuel st kv.2 with
            | none => none
            | some (r, s1) => some ((kv.1, r), s1)) seen
            (pushFields fs h0).2 = some (fs, seen2) ∧
          ∀ x ∈ seen2, x ∈ seen ∨ x < (pushFields fs h0).1.length) := by
  induction N using Nat.strong_induction_on with
  | _ N ih =>
    refine ⟨?_, ?_, ?_⟩
    · intro s hs h0 H ext seen fuel hH hseen hfuel
      obtain ⟨f, rfl⟩ : ∃ f, fuel = f + 1 :=
        ⟨fuel - 1, by have := svalue_sizeOf_pos s; omega⟩
      cases s with
      | null => exact ⟨seen, rfl, fun x hx => Or.inl hx⟩
      | num n => exact ⟨seen, rfl, fun x hx => Or.inl hx⟩
      | str s => exact ⟨seen, rfl, fun x hx => Or.inl hx⟩
      | bool b => exact ⟨seen, rfl, fun x hx => Or.inl hx⟩
      | arr es =>
        have hpush : pushSVal (.arr es) h0 =
            ((pushList es h0).1 ++ [.arr (pushList es h0).2],
             .ref (pushList es h0).1.length) := by
          simp [pushSVal]
        rw [hpush] at hH hseen ⊢
        have hN : 1 ≤ N := le_trans (svalue_sizeOf_pos _) hs
        have hes : sizeOf es ≤ N - 1 := by simp at hs; omega
        have hlook : H[(pushList es h0).1.length]? =
            some (.arr (pushList es h0).2) := by
          rw [hH, List.append_assoc, List.getElem?_append_right le_rfl]
          simp
        have hinv : ∀ j ∈ seen, j < h0.length ∨ (pushList es h0).1.length ≤ j := by
          intro j hj
          rcases hseen j hj with hlt | hge
          · exact Or.inl hlt
          · simp only [List.length_append, List.length_cons, List.length_nil] at hge
            exact Or.inr (by omega)
        have hfuel' : ∀ e ∈ es, sizeOf e ≤ f := by
          intro e he
          have h1 := sizeOf_lt_of_mem_sval he
          have h2 : sizeOf (SValue.arr es) = 1 + sizeOf es := by simp
          omega
        obtain ⟨seen2, hM, hb⟩ := (ih (N - 1) (by omega)).2.1 es hes h0 H
          ([.arr (pushList es h0).2] ++ ext) seen f
          (by rw [hH, List.append_assoc]) hinv hfuel'
        refine ⟨seen2, ?_, ?_⟩
        · simp only [sanitizeFuel, hlook, hM]
        · intro x hx
          rcases hb x hx with hx1 | hx2
          · exact Or.inl hx1
          · exact Or.inr (by simp only [List.length_append, List.length_cons,
              List.length_nil]; omega)
      | obj fs =>
        have hpush : pushSVal (.obj fs) h0 =
            ((pushFields fs h0).1 ++ [.plain (pushFields fs h0).2],
             .ref (pushFields fs h0).1.length) := by
          simp [pushSVal]
        rw [hpush] at hH hseen ⊢
        have hN : 1 ≤ N := le_trans (svalue_sizeOf_pos _) hs
        have hfs : sizeOf fs ≤ N - 1 := by simp at hs; omega
        have hlook : H[(pushFields fs h0).1.length]? =
            some (.plain (pushFields fs h0).2) := by
          rw [hH, List.append_assoc, List.getElem?_append_right le_rfl]
          simp
        have hNmem : (pushFields fs h0).1.length ∉ seen := by
          intro hmem
          rcases hseen _ hmem with hlt | hge
          · have := pushFields_length_le fs h0
            omega
          · simp only [List.length_append, List.length_cons, List.length_nil] at hge
            omega
        have hinv : ∀ j ∈ (pushFields fs h0).1.length :: seen,
            j < h0.length ∨ (pushFields fs h0).1.length ≤ j := by
          intro j hj
          rcases List.mem_cons.mp hj with rfl | hj2
          · exact Or.inr le_rfl
          · rcases hseen j hj2 with hlt | hge
            · exact Or.inl hlt
            · simp only [List.length_append, List.length_cons, List.length_nil] at hge
              exact Or.inr (by omega)
        have hfuel' : ∀ kv ∈ fs, sizeOf kv.2 ≤ f := by
          intro kv hkv
          have h1 := sizeOf_snd_lt_of_mem_fields hkv
          have h2 : sizeOf (SValue.obj fs) = 1 + sizeOf fs := by simp
          omega
        obtain ⟨seen2, hM, hb⟩ := (ih (N - 1) (by omega)).2.2 fs hfs h0 H
          ([.plain (pushFields fs h0).2] ++ ext)
          ((pushFields fs h0).1.length :: seen) f
          (by rw [hH, List.append_assoc]) hinv hfuel'
        refine ⟨seen2, ?_, ?_⟩
        · simp only [sanitizeFuel, hlook, sanitizeObjectFields]
          rw [if_neg hNmem]
          simp only [hM]
        · intro x hx
          rcases hb x hx with hx1 | hx2
          · rcases List.mem_cons.mp hx1 with rfl | hx3
            · exact Or.inr (by simp)
            · exact Or.inl hx3
          · exact Or.inr (by simp only [List.length_append, List.length_cons,
              List.length_nil]; omega)
    · intro es hes h0 H ext seen fuel hH hseen hfuel
      cases es with
      | nil => exact ⟨seen, rfl, fun x hx => Or.inl hx⟩
      | cons e rest =>
        have hpush : pushList (e :: rest) h0 =
            ((pushList rest (pushSVal e h0).1).1,
             (pushSVal e h0).2 :: (pushList rest (pushSVal e h0).1).2) := by
          simp [pushList]
        rw [hpush] at hH hseen ⊢
        have hsz : sizeOf (e :: rest) = 1 + sizeOf e + sizeOf rest := by simp
        have hN : 1 ≤ N := by omega
        obtain ⟨t2, ht2⟩ :=
          (push_extends (sizeOf rest)).2.1 rest le_rfl (pushSVal e h0).1
        have hlen12 : (pushSVal e h0).1.length ≤
            (pushList rest (pushSVal e h0).1).1.length := pushList_length_le _ _
        have hlen01 : h0.length ≤ (pushSVal e h0).1.length := pushSVal_length_le _ _
        obtain ⟨seen1, he1, hb1⟩ := (ih (N - 1) (by omega)).1 e (by omega) h0 H
          (t2 ++ ext) seen fuel
          (by rw [hH, ht2, List.append_assoc])
          (by
            intro j hj
            rcases hseen j hj with hlt | hge
            · exact Or.inl hlt
            · exact Or.inr (le_trans hlen12 hge))
          (hfuel e (by simp))
        obtain ⟨seen2, he2, hb2⟩ := (ih (N - 1) (by omega)).2.1 rest (by omega)
          (pushSVal e h0).1 H ext seen1 fuel hH
          (by
            intro j hj
            rcases hb1 j hj with hj1 | hj2
            · rcases hseen j hj1 with hlt | hge
              · exact Or.inl (lt_of_lt_of_le hlt hlen01)
              · exact Or.inr hge
            · exact Or.inl hj2)
          (fun e' he' => hfuel e' (by simp [he']))
        refine ⟨seen2, ?_, ?_⟩
        · simp only [mapAccumOpt, he1, he2]
        · intro x hx
          rcases hb2 x hx with hx1 | hx2
          · rcases hb1 x hx1 with hx3 | hx4
            · exact Or.inl hx3
            · exact Or.inr (lt_of_lt_of_le hx4 hlen12)
          · exact Or.inr hx2
    · intro fs hfs h0 H ext seen fuel hH hseen hfuel
      cases fs with
      | nil => exact ⟨seen, rfl, fun x hx => Or.inl hx⟩
      | cons kv rest =>
        obtain ⟨k, v⟩ := kv
        have hpush : pushFields ((k, v) :: rest) h0 =
            ((pushFields rest (pushSVal v h0).1).1,
             (k, (pushSVal v h0).2) :: (pushFields rest (pushSVal v h0).1).2) := by
          simp [pushFields]
        rw [hpush] at hH hseen ⊢
        have hsz : sizeOf ((k, v) :: rest) =
            1 + (1 + sizeOf k + sizeOf v) + sizeOf rest := by simp
        have hN : 1 ≤ N := by omega
        obtain ⟨t2, ht2⟩ :=
          (push_extends (sizeOf rest)).2.2 rest le_rfl (pushSVal v h0).1
        have hlen12 : (pushSVal v h0).1.length ≤
            (pushFields rest (pushSVal v h0).1).1.length := pushFields_length_le _ _
        have hlen01 : h0.length ≤ (pushSVal v h0).1.length := pushSVal_length_le _ _
        obtain ⟨seen1, he1, hb1⟩ := (ih (N - 1) (by omega)).1 v (by omega) h0 H
          (t2 ++ ext) seen fuel
          (by rw [hH, ht2, List.append_assoc])
          (by
            intro j hj
            rcases hseen j hj with hlt | hge
            · exact Or.inl hlt
            · exact Or.inr (le_trans hlen12 hge))
          (hfuel (k, v) (by simp))
        obtain ⟨seen2, he2, hb2⟩ := (ih (N - 1) (by omega)).2.2 rest (by omega)
          (pushSVal v h0).1 H ext seen1 fuel hH
          (by
            intro j hj
            rcases hb1 j hj with hj1 | hj2
            · rcases hseen j hj1 with hlt | hge
              · exact Or.inl (lt_of_lt_of_le hlt hlen01)
              · exact Or.inr hge
            · exact Or.inl hj2)
          (fun kv' hkv' => hfuel kv' (by simp [hkv']))
        refine ⟨seen2, ?_, ?_⟩
        · simp only [mapAccumOpt, he1, he2]
        · intro x hx
          rcases hb2 x hx with hx1 | hx2
          · rcases hb1 x hx1 with hx3 | hx4
            · exact Or.inl hx3
            · exact Or.inr (lt_of_lt_of_le hx4 hlen12)
          · exact Or.inr hx2

theorem sanitize_pushSVal_eq (s : SValue) :
    sanitizeFirestoreValue (pushSVal s []).1 (sizeOf s) (pushSVal s []).2 = some s := by
  obtain ⟨seen2, hs, _⟩ := (push_roundtrip (sizeOf s)).1 s le_rfl [] (pushSVal s []).1
    [] [] (sizeOf s) (by simp) (by simp) le_rfl
  simp [sanitizeFirestoreValue, hs]

/-- Claim C8: sanitizing a plain JSON value (null, finite numbers,
strings, booleans, arrays and plain objects of these, freshly
allocated as a tree) returns a structurally equal value, and the
sanitizer is idempotent: re-sanitizing any sanitizer output returns it
unchanged. -/
theorem sanitize_plain_json_identity_idempotent :
    (∀ s : SValue, svalAllFinite s = true →
      sanitizeFirestoreValue (pushSVal s []).1 (sizeOf s) (pushSVal s []).2 = some s) ∧
    (∀ (h : Heap) (fuel : Nat) (v : JSValue) (s : SValue),
      sanitizeFirestoreValue h fuel v = some s →
      sanitizeFirestoreValue (pushSVal s []).1 (sizeOf s) (pushSVal s []).2 = some s) :=
  ⟨fun s _ => sanitize_pushSVal_eq s, fun _ _ _ s _ => sanitize_pushSVal_eq s⟩

/-- Witness for C8: the identity on a concrete plain JSON object, and
idempotence on a concrete sanitizer run. -/
theorem sanitize_plain_json_identity_idempotent_witness :
    sanitizeFirestoreValue
      (pushSVal (.obj [("a", .num (.finite 2)), ("b", .arr [.null, .str "x"])]) []).1
      (sizeOf (SValue.obj [("a", .num (.finite 2)), ("b", .arr [.null, .str "x"])]))
      (pushSVal (.obj [("a", .num (.finite 2)), ("b", .arr [.null, .str "x"])]) []).2 =
      some (.obj [("a", .num (.finite 2)), ("b", .arr [.null, .str "x"])]) ∧
    sanitizeFirestoreValue (pushSVal (.str "y") []).1 (sizeOf (SValue.str "y"))
      (pushSVal (.str "y") []).2 = some (.str "y") := by
  constructor
  · exact sanitize_plain_json_identity_idempotent.1
      (.obj [("a", .num (.finite 2)), ("b", .arr [.null, .str "x"])])
      (by simp [svalAllFinite, svalListAllFinite, svalFieldsAllFinite])
  · exact sanitize_plain_json_identity_idempotent.2 [] 1 (.str "y") (.str "y") rfl

end FirestoreMcp
